import Mathlib

/-!
# SimpleVector: a shallow embedding of `simple_vector.h`

The container of `src/simple-vector/simple_vector.h` is embedded as a record of its three
data members (`size_`, `capacity_`, `arr_`), and every member function as a function on
that record.

Modelling conventions.

* `size_t` values are counts of cells of a block that has really been allocated; they are
  embedded as `Nat`. Allocation is taken to succeed, so no count ever comes near the
  wrap-around of `size_t`.
* The heap block owned by `arr_` is the list of its cells. A position inside the block
  (a `Type*` iterator) is its distance from `begin()`, a `Nat`.
* `Type{}` is `default` of an `Inhabited` element type.
* `std::move` of elements is embedded as a copy: a moved-from cell keeps its value. The
  cells that `Resize`, `Erase` and the move constructor move from are overwritten or lie
  past `size_` before they are read again; a cell stays an element after it was moved from
  only when a `Type&&` argument is itself an element of the vector.
* A read of a cell past the block (undefined behaviour in C++) yields `default`, a write
  past the block is dropped. Neither happens on a vector whose block has `capacity_` cells.
* A failed `assert`, a thrown `std::out_of_range` and a read through a reference into a
  released block are the three values of `Failure`.
* A `const Type&` or `Type&&` parameter is a `Ref`: the object it is bound to lies outside
  the block of the vector, or is one of the cells of that block.
* Where a claim is about which block a vector holds, the vector is a `SimpleVectorObj`, its
  `arr_` a pointer into a `Heap`; `SimpleVectorObj.view` gives the vector it stands for.
-/

set_option autoImplicit false
set_option linter.unusedSectionVars false
set_option linter.unusedVariables false

/-! ## Failures -/

/-- The ways a member function can fail to return a result: `std::out_of_range` thrown by
`At`, an `assert` that does not hold, and a read through a reference whose block has been
released (undefined behaviour in C++, where the embedding stops). -/
inductive Failure where
  | out_of_range
  | assertion
  | dangling
deriving DecidableEq, Repr

deriving instance DecidableEq for Except

/-! ## Standard algorithms over blocks of cells -/

section Algorithms

variable {T : Type} [Inhabited T]

/-- Loop of `std::fill`: `n` times `*first++ = value`. -/
def fill_loop : Nat → List T → Nat → T → List T
  | 0, buf, _, _ => buf
  | n + 1, buf, first, value => fill_loop n (buf.set first value) (first + 1) value

/-- Source: `std::fill(first, last, value)` on the cells `[first, last)` of one block; also the loops
`for (it = first; it < last; ++it) *it = Type{}` of the sized constructor and of `Resize`. -/
def std_fill (buf : List T) (first last : Nat) (value : T) : List T :=
  fill_loop (last - first) buf first value

/-- Loop of `std::copy` between two blocks: `n` times `*d_first++ = *first++`. -/
def copy_loop : Nat → List T → Nat → List T → Nat → List T
  | 0, _, _, dst, _ => dst
  | n + 1, src, first, dst, d_first =>
      copy_loop n src (first + 1) (dst.set d_first (src.getD first default)) (d_first + 1)

/-- Source: `std::copy(first, last, d_first)` (and `std::move` with the same arguments) from the cells
`[first, last)` of the block `src` into the block `dst`, starting at its cell `d_first`. -/
def std_copy (src : List T) (first last : Nat) (dst : List T) (d_first : Nat) : List T :=
  copy_loop (last - first) src first dst d_first

/-- Loop of `std::move` inside one block, front to back: `n` times `*d_first++ = *first++`,
every read seeing the writes made before it. -/
def move_loop : Nat → List T → Nat → Nat → List T
  | 0, buf, _, _ => buf
  | n + 1, buf, first, d_first =>
      move_loop n (buf.set d_first (buf.getD first default)) (first + 1) (d_first + 1)

/-- Source: `std::move(first, last, d_first)` with source and destination in the same block. -/
def std_move (buf : List T) (first last d_first : Nat) : List T :=
  move_loop (last - first) buf first d_first

/-- Loop of `std::copy_backward` inside one block, back to front: `n` times
`*(--d_last) = *(--last)`, every read seeing the writes made before it. -/
def copy_backward_loop : Nat → List T → Nat → Nat → List T
  | 0, buf, _, _ => buf
  | n + 1, buf, last, d_last =>
      copy_backward_loop n (buf.set (d_last - 1) (buf.getD (last - 1) default))
        (last - 1) (d_last - 1)

/-- Source: `std::copy_backward(first, last, d_last)` (and `std::move_backward`) inside one block. -/
def std_copy_backward (buf : List T) (first last d_last : Nat) : List T :=
  copy_backward_loop (last - first) buf last d_last

end Algorithms

/-! ## The owned buffer -/

/-- Modelled from the spec: the Owned Buffer `ArrayPtr<Type>` of `array_ptr.h`, which is not
among the sources. It owns one contiguous block of cells, here the list of the cells. -/
abbrev ArrayPtr (T : Type) := List T

/-- Modelled from the spec: `ArrayPtr(size)` of `array_ptr.h` requests storage for `size`
cells, and `size == 0` yields the empty buffer. The storage is raw: what a fresh cell holds
is not specified, and `raw i` stands for whatever cell `i` of the new block holds. -/
def ArrayPtr.alloc {T : Type} (raw : Nat → T) (size : Nat) : ArrayPtr T :=
  (List.range size).map raw

/-! ## The container -/

/-- Source: `class ReserveProxyObj`: the token carrying a capacity to reserve. -/
structure ReserveProxyObj where
  obj_capacity_ : Nat
deriving DecidableEq, Repr

/-- The free function `Reserve(capacity_to_reserve)`. -/
def Reserve (capacity_to_reserve : Nat) : ReserveProxyObj :=
  ⟨capacity_to_reserve⟩

/-- What a `const Type&` or `Type&&` parameter of a member function is bound to when the
call is made: an object outside the block of the vector, holding `x`, or the cell `j` of
the block the vector owns (as in `v.PushBack(v[0])`). -/
inductive Ref (T : Type) where
  | outside (x : T)
  | cell (j : Nat)
deriving DecidableEq, Repr

/-- The read of a reference parameter inside a member function. `block` is the block the
vector owns at the time of the read; `released` tells whether the block it owned when the
call was made has been released since. A reference to a cell of a released block
dangles. -/
def Ref.read {T : Type} [Inhabited T] (r : Ref T) (block : List T) (released : Bool) :
    Except Failure T :=
  match r with
  | .outside x => .ok x
  | .cell j => if released then .error Failure.dangling else .ok (block.getD j default)

/-- Source: `class SimpleVector<Type>`: its data members. -/
structure SimpleVector (T : Type) where
  size_ : Nat
  capacity_ : Nat
  arr_ : ArrayPtr T
deriving DecidableEq, Repr

namespace SimpleVector

variable {T : Type} [Inhabited T]

/-- Source: `SimpleVector() noexcept = default`: both counts 0, `arr_` the empty buffer. -/
def new : SimpleVector T :=
  { size_ := 0, capacity_ := 0, arr_ := [] }

/-- Source: `explicit SimpleVector(size_t size)`. -/
def ofSize (raw : Nat → T) (size : Nat) : SimpleVector T :=
  { size_ := size, capacity_ := size,
    arr_ := std_fill (ArrayPtr.alloc raw size) 0 size default }

/-- Source: `SimpleVector(size_t size, const Type& value)`. -/
def ofSizeValue (raw : Nat → T) (size : Nat) (value : T) : SimpleVector T :=
  { size_ := size, capacity_ := size,
    arr_ := std_fill (ArrayPtr.alloc raw size) 0 size value }

/-- Source: `SimpleVector(std::initializer_list<Type> init)`. -/
def ofInit (raw : Nat → T) (init : List T) : SimpleVector T :=
  { size_ := init.length, capacity_ := init.length,
    arr_ := std_copy init 0 init.length (ArrayPtr.alloc raw init.length) 0 }

/-- Source: `SimpleVector(const SimpleVector& other)`. -/
def copy_ctor (raw : Nat → T) (other : SimpleVector T) : SimpleVector T :=
  { size_ := other.size_, capacity_ := other.size_,
    arr_ := std_copy other.arr_ 0 other.size_ (ArrayPtr.alloc raw other.size_) 0 }

/-- Source: `SimpleVector(SimpleVector&& other)`: the new vector, and `other` as the constructor
leaves it. -/
def move_ctor (raw : Nat → T) (other : SimpleVector T) : SimpleVector T × SimpleVector T :=
  ({ size_ := other.size_, capacity_ := other.size_,
     arr_ := std_copy other.arr_ 0 other.size_ (ArrayPtr.alloc raw other.size_) 0 },
   { other with size_ := 0 })

/-- Source: `SimpleVector(ReserveProxyObj obj)`. -/
def ofReserve (raw : Nat → T) (obj : ReserveProxyObj) : SimpleVector T :=
  { size_ := 0, capacity_ := obj.obj_capacity_, arr_ := ArrayPtr.alloc raw obj.obj_capacity_ }

/-- Source: `GetSize()`. -/
def GetSize (v : SimpleVector T) : Nat := v.size_

/-- Source: `GetCapacity()`. -/
def GetCapacity (v : SimpleVector T) : Nat := v.capacity_

/-- Source: `IsEmpty()`. -/
def IsEmpty (v : SimpleVector T) : Bool := v.size_ == 0

/-- Source: `begin()`, as a distance from the start of the block. -/
def begin_ (_v : SimpleVector T) : Nat := 0

/-- Source: `end()`, as a distance from the start of the block. -/
def end_ (v : SimpleVector T) : Nat := v.size_

/-- Source: `operator[](index)`: the element read, and the vector after the call. -/
def operator_index (v : SimpleVector T) (index : Nat) : Except Failure (T × SimpleVector T) :=
  if index < v.size_ then .ok (v.arr_.getD index default, v)
  else .error Failure.assertion

/-- Source: `At(index)`: the element read, and the vector after the call. -/
def At (v : SimpleVector T) (index : Nat) : Except Failure (T × SimpleVector T) :=
  if index ≥ v.size_ then .error Failure.out_of_range
  else .ok (v.arr_.getD index default, v)

/-- Source: `Clear()`. -/
def Clear (v : SimpleVector T) : SimpleVector T :=
  { v with size_ := 0 }

/-- Source: `Resize(new_size)`. -/
def Resize (raw : Nat → T) (v : SimpleVector T) (new_size : Nat) : SimpleVector T :=
  if new_size ≤ v.size_ then
    { v with size_ := new_size }
  else if new_size < v.capacity_ then
    { v with arr_ := std_fill v.arr_ v.size_ new_size default, size_ := new_size }
  else
    let new_vec : SimpleVector T := ofSize raw (max new_size (v.capacity_ * 2))
    { size_ := new_size, capacity_ := new_vec.capacity_,
      arr_ := std_copy v.arr_ 0 v.size_ new_vec.arr_ 0 }

/-- Whether `Resize(new_size)` takes its last branch: there `arr_.swap(new_vec.arr_)` hands
the block the vector owned to `new_vec`, whose destructor releases it when `Resize`
returns. -/
def Resize_releases (v : SimpleVector T) (new_size : Nat) : Bool :=
  if new_size ≤ v.size_ then false
  else if new_size < v.capacity_ then false
  else true

/-- Source: `Reserve(new_capacity)`. -/
def Reserve (raw : Nat → T) (v : SimpleVector T) (new_capacity : Nat) : SimpleVector T :=
  if new_capacity > v.capacity_ then
    let new_vec : SimpleVector T := ofSize raw new_capacity
    { v with arr_ := std_copy v.arr_ 0 v.size_ new_vec.arr_ 0, capacity_ := new_capacity }
  else v

/-- Source: `swap(other)`: the vector and `other` after the call. -/
def swap (v other : SimpleVector T) : SimpleVector T × SimpleVector T :=
  ({ size_ := other.size_, capacity_ := other.capacity_, arr_ := other.arr_ },
   { size_ := v.size_, capacity_ := v.capacity_, arr_ := v.arr_ })

/-- Source: `operator=(const SimpleVector& rhs)`: the vector after the call. `same_object` tells
whether `rhs` is the vector itself (`this == &rhs`). -/
def operator_assign (raw : Nat → T) (v rhs : SimpleVector T) (same_object : Bool) :
    SimpleVector T :=
  if same_object then v
  else
    let vec := copy_ctor raw rhs
    (swap v vec).1

/-- Source: `PushBack(const Type& item)` and `PushBack(Type&& item)`. `item` is read in the last
statement, `arr_[size_++] = item`, after `Resize` may have released the block it refers
to. -/
def PushBack (raw : Nat → T) (v : SimpleVector T) (item : Ref T) :
    Except Failure (SimpleVector T) :=
  let v1 : SimpleVector T :=
    if v.size_ = v.capacity_ then
      let tmp_size := v.size_
      { Resize raw v (v.capacity_ + 1) with size_ := tmp_size }
    else v
  let released : Bool :=
    if v.size_ = v.capacity_ then Resize_releases v (v.capacity_ + 1) else false
  match item.read v1.arr_ released with
  | .error e => .error e
  | .ok x => .ok { v1 with arr_ := v1.arr_.set v1.size_ x, size_ := v1.size_ + 1 }

/-- The vector that `PushBack` leaves when `item` is bound to an object outside the block,
holding `x`; such a call always returns. -/
def PushBack_result (raw : Nat → T) (v : SimpleVector T) (x : T) : SimpleVector T :=
  match PushBack raw v (Ref.outside x) with
  | .ok w => w
  | .error _ => v

/-- Source: `Insert(pos, value)`, both overloads, `pos` being `begin() + p`: the vector after the
call and the iterator returned. `value` is read in the statement `arr_[p] = value`, after
`Resize` may have released the block it refers to and after `copy_backward` has shifted the
cells. -/
def Insert (raw : Nat → T) (v : SimpleVector T) (p : Nat) (value : Ref T) :
    Except Failure (SimpleVector T × Nat) :=
  if p ≤ v.size_ then
    let tmp_size := v.size_
    let v1 : SimpleVector T :=
      if v.size_ = v.capacity_ then
        Resize raw v (if v.capacity_ = 0 then 1 else v.capacity_ * 2)
      else v
    let released : Bool :=
      if v.size_ = v.capacity_ then
        Resize_releases v (if v.capacity_ = 0 then 1 else v.capacity_ * 2)
      else false
    let v2 : SimpleVector T := { v1 with size_ := tmp_size + 1 }
    let v3 : SimpleVector T :=
      { v2 with arr_ := std_copy_backward v2.arr_ p (v2.size_ - 1) v2.size_ }
    match value.read v3.arr_ released with
    | .error e => .error e
    | .ok x => .ok ({ v3 with arr_ := v3.arr_.set p x }, p)
  else .error Failure.assertion

/-- Source: `PopBack()`. -/
def PopBack (v : SimpleVector T) : SimpleVector T :=
  if v.size_ > 0 then { v with size_ := v.size_ - 1 } else v

/-- Source: `Erase(pos)`, `pos` being `begin() + p`: the vector after the call and the iterator
returned. -/
def Erase (v : SimpleVector T) (p : Nat) : Except Failure (SimpleVector T × Nat) :=
  if p < v.size_ then
    let v1 : SimpleVector T := { v with arr_ := std_move v.arr_ (p + 1) v.size_ p }
    .ok ({ v1 with size_ := v1.size_ - 1 }, p)
  else .error Failure.assertion

/-- The elements of the vector: the cells `[begin(), end())` in order. -/
def elems (v : SimpleVector T) : List T := v.arr_.take v.size_

/-- The block owned by `arr_` has `capacity_` cells, and `size_` of them are in use. -/
def WF (v : SimpleVector T) : Prop :=
  v.size_ ≤ v.capacity_ ∧ v.arr_.length = v.capacity_

instance (v : SimpleVector T) : Decidable (WF v) := by
  unfold WF; infer_instance

/-- Raw cells for the worked examples: cell `i` of a fresh block holds `100 + i`. -/
def rawCells : Nat → Nat := fun i => 100 + i

/-- Calls of `PushBack`, one for each value of `xs`, in order; the values are held by objects
outside the block of the vector. -/
def pushAll (raw : Nat → T) : SimpleVector T → List T → Except Failure (SimpleVector T)
  | v, [] => .ok v
  | v, x :: xs =>
      match PushBack raw v (Ref.outside x) with
      | .ok w => pushAll raw w xs
      | .error e => .error e

/-- The vector that `pushAll` leaves: `PushBack_result` folded over `xs`. -/
def pushAll_result (raw : Nat → T) (v : SimpleVector T) (xs : List T) : SimpleVector T :=
  xs.foldl (PushBack_result raw) v

/-- The vectors a program can hold: what a constructor returns, and what a member function
leaves behind when called on such vectors. `Insert` and `Erase` return only for a position
the `assert` admits, `[0, size]` and `[0, size)`. Each allocation has raw cells of its own,
and the argument of `PushBack` and `Insert` is any reference. -/
inductive Reachable : SimpleVector T → Prop
  | default_ctor : Reachable new
  | sized (raw : Nat → T) (size : Nat) : Reachable (ofSize raw size)
  | sized_fill (raw : Nat → T) (size : Nat) (value : T) : Reachable (ofSizeValue raw size value)
  | init_list (raw : Nat → T) (init : List T) : Reachable (ofInit raw init)
  | copy (raw : Nat → T) {other : SimpleVector T} :
      Reachable other → Reachable (copy_ctor raw other)
  | move (raw : Nat → T) {other : SimpleVector T} :
      Reachable other → Reachable (move_ctor raw other).1
  | moved_from (raw : Nat → T) {other : SimpleVector T} :
      Reachable other → Reachable (move_ctor raw other).2
  | reserve_proxy (raw : Nat → T) (obj : ReserveProxyObj) : Reachable (ofReserve raw obj)
  | clear {v : SimpleVector T} : Reachable v → Reachable (Clear v)
  | resize (raw : Nat → T) {v : SimpleVector T} (new_size : Nat) :
      Reachable v → Reachable (Resize raw v new_size)
  | reserve (raw : Nat → T) {v : SimpleVector T} (new_capacity : Nat) :
      Reachable v → Reachable (Reserve raw v new_capacity)
  | push_back (raw : Nat → T) {v w : SimpleVector T} (item : Ref T) :
      Reachable v → PushBack raw v item = .ok w → Reachable w
  | insert (raw : Nat → T) {v w : SimpleVector T} (p : Nat) (value : Ref T) (it : Nat) :
      Reachable v → Insert raw v p value = .ok (w, it) → Reachable w
  | pop_back {v : SimpleVector T} : Reachable v → Reachable (PopBack v)
  | erase {v w : SimpleVector T} (p : Nat) (it : Nat) :
      Reachable v → Erase v p = .ok (w, it) → Reachable w
  | swap_this {v other : SimpleVector T} :
      Reachable v → Reachable other → Reachable (swap v other).1
  | swap_other {v other : SimpleVector T} :
      Reachable v → Reachable other → Reachable (swap v other).2
  | assign (raw : Nat → T) {v rhs : SimpleVector T} :
      Reachable v → Reachable rhs → Reachable (operator_assign raw v rhs false)
  | assign_self (raw : Nat → T) {v : SimpleVector T} :
      Reachable v → Reachable (operator_assign raw v v true)

/-- Number of calls of `PushBack`, among those made for the values of `xs` in order, that
find the vector full (`size_ == capacity_`) and so go through the growth path of `Resize`. -/
def reallocations (raw : Nat → T) : SimpleVector T → List T → Nat
  | _, [] => 0
  | v, x :: xs =>
      (if v.size_ = v.capacity_ then 1 else 0) +
        (match PushBack raw v (Ref.outside x) with
          | .ok w => reallocations raw w xs
          | .error _ => 0)

end SimpleVector

/-! ## The comparison operators -/

section Comparison

variable {T : Type} [Inhabited T]

/-- Loop of `std::equal`: `n` times, `if (!(*first1++ == *first2++)) return false;`, then
`return true`. -/
def equal_loop [BEq T] : Nat → List T → Nat → List T → Nat → Bool
  | 0, _, _, _, _ => true
  | n + 1, b1, first1, b2, first2 =>
      if !(b1.getD first1 default == b2.getD first2 default) then false
      else equal_loop n b1 (first1 + 1) b2 (first2 + 1)

/-- Source: `std::equal(first1, last1, first2)` on the cells `[first1, last1)` of `b1` and the
cells of `b2` from `first2` on. -/
def std_equal [BEq T] (b1 : List T) (first1 last1 : Nat) (b2 : List T) (first2 : Nat) : Bool :=
  equal_loop (last1 - first1) b1 first1 b2 first2

/-- Loop of `std::lexicographical_compare`, with `n1` cells left in the first range and `n2`
in the second: while both are non-empty, `if (*first1 < *first2) return true;
if (*first2 < *first1) return false;` and step; at the end
`return first1 == last1 && first2 != last2`. -/
def lexicographical_loop [LT T] [DecidableRel (fun (x y : T) => x < y)] :
    Nat → Nat → List T → Nat → List T → Nat → Bool
  | 0, n2, _, _, _, _ => decide (n2 ≠ 0)
  | _ + 1, 0, _, _, _, _ => false
  | n1 + 1, n2 + 1, b1, first1, b2, first2 =>
      if b1.getD first1 default < b2.getD first2 default then true
      else if b2.getD first2 default < b1.getD first1 default then false
      else lexicographical_loop n1 n2 b1 (first1 + 1) b2 (first2 + 1)

/-- Source: `std::lexicographical_compare(first1, last1, first2, last2)`. -/
def std_lexicographical_compare [LT T] [DecidableRel (fun (x y : T) => x < y)]
    (b1 : List T) (first1 last1 : Nat) (b2 : List T) (first2 last2 : Nat) : Bool :=
  lexicographical_loop (last1 - first1) (last2 - first2) b1 first1 b2 first2

/-- Source: `operator==(lhs, rhs)`. -/
def operator_eq [BEq T] (lhs rhs : SimpleVector T) : Bool :=
  if lhs.GetSize ≠ rhs.GetSize then false
  else std_equal lhs.arr_ lhs.begin_ lhs.end_ rhs.arr_ rhs.begin_

/-- Source: `operator!=(lhs, rhs)`. -/
def operator_ne [BEq T] (lhs rhs : SimpleVector T) : Bool :=
  !(operator_eq lhs rhs)

/-- Source: `operator<(lhs, rhs)`. -/
def operator_lt [LT T] [DecidableRel (fun (x y : T) => x < y)] (lhs rhs : SimpleVector T) :
    Bool :=
  std_lexicographical_compare lhs.arr_ lhs.begin_ lhs.end_ rhs.arr_ rhs.begin_ rhs.end_

/-- Source: `operator<=(lhs, rhs)`. -/
def operator_le [BEq T] [LT T] [DecidableRel (fun (x y : T) => x < y)]
    (lhs rhs : SimpleVector T) : Bool :=
  operator_eq lhs rhs || operator_lt lhs rhs

/-- Source: `operator>(lhs, rhs)`. -/
def operator_gt [LT T] [DecidableRel (fun (x y : T) => x < y)] (lhs rhs : SimpleVector T) :
    Bool :=
  operator_lt rhs lhs

/-- Source: `operator>=(lhs, rhs)`. -/
def operator_ge [LT T] [DecidableRel (fun (x y : T) => x < y)] (lhs rhs : SimpleVector T) :
    Bool :=
  !(operator_lt lhs rhs)

/-- The loop of `std::lexicographical_compare` read off two lists of elements. -/
def lex_less [LT T] [DecidableRel (fun (x y : T) => x < y)] : List T → List T → Bool
  | [], [] => false
  | [], _ :: _ => true
  | _ :: _, [] => false
  | x :: xs, y :: ys =>
      if x < y then true else if y < x then false else lex_less xs ys

/-- Lexicographic order in the words of the specification: a proper prefix is less than
the longer sequence; otherwise the first differing element decides. `pre` is the part the
two sequences share. -/
def LexLess [LT T] (xs ys : List T) : Prop :=
  ∃ pre : List T,
    (∃ y t, xs = pre ∧ ys = pre ++ y :: t) ∨
    (∃ x y s t, xs = pre ++ x :: s ∧ ys = pre ++ y :: t ∧ x < y)

end Comparison

/-! ## Vectors in memory -/

section Memory

variable {T : Type} [Inhabited T]

/-- Modelled from the spec: the storage that `ArrayPtr` of `array_ptr.h` allocates from and
releases to. The address of a block is its place in the list, and a released block is
`none`. -/
abbrev Heap (T : Type) := List (Option (List T))

/-- Modelled from the spec: the raw pointer an `ArrayPtr` holds: null, or the address of the
block it owns. -/
abbrev Ptr := Option Nat

/-- The cells of the block that a pointer designates; the null pointer, and an address with no
block, designate no cell. -/
def Heap.cells (h : Heap T) (ptr : Ptr) : List T :=
  match ptr with
  | none => []
  | some a =>
      match h[a]? with
      | some (some block) => block
      | _ => []

/-- Modelled from the spec: `ArrayPtr(size)` of `array_ptr.h`: `size == 0` yields the null
pointer and makes no allocation; otherwise the buffer owns a block of `size` raw cells at an
address that was not in use. -/
def Heap.allocate (raw : Nat → T) (h : Heap T) (size : Nat) : Heap T × Ptr :=
  if size = 0 then (h, none)
  else (h ++ [some (ArrayPtr.alloc raw size)], some h.length)

/-- The heap after the cells of the block that `ptr` designates have been written. -/
def Heap.store (h : Heap T) (ptr : Ptr) (cells : List T) : Heap T :=
  match ptr with
  | none => h
  | some a => h.set a (some cells)

/-- Modelled from the spec: the destructor of `ArrayPtr` of `array_ptr.h` deallocates the block
held, if the pointer is not null. -/
def Heap.release (h : Heap T) (ptr : Ptr) : Heap T :=
  match ptr with
  | none => h
  | some a => h.set a none

/-- Source: `class SimpleVector<Type>` as an object in memory: the two counts, and the pointer
that `arr_` holds. -/
structure SimpleVectorObj where
  size_ : Nat
  capacity_ : Nat
  arr_ : Ptr
deriving DecidableEq, Repr

/-- The vector that an object in memory stands for: its counts, and the cells of the block
that its `arr_` designates. -/
def SimpleVectorObj.view (h : Heap T) (o : SimpleVectorObj) : SimpleVector T :=
  { size_ := o.size_, capacity_ := o.capacity_, arr_ := h.cells o.arr_ }

/-- Source: `SimpleVector(const SimpleVector& other)` on objects in memory: the initialiser
`arr_(other.size_)` allocates, then `copy(other.begin(), other.end(), begin())` writes the
new block. The heap after the call, and the object constructed. -/
def copy_ctor_mem (raw : Nat → T) (h : Heap T) (other : SimpleVectorObj) :
    Heap T × SimpleVectorObj :=
  let h1 : Heap T := (Heap.allocate raw h other.size_).1
  let a : Ptr := (Heap.allocate raw h other.size_).2
  let h2 : Heap T :=
    Heap.store h1 a (std_copy (Heap.cells h1 other.arr_) 0 other.size_ (Heap.cells h1 a) 0)
  (h2, { size_ := other.size_, capacity_ := other.size_, arr_ := a })

/-- Source: `swap(other)` on objects in memory: the counts are exchanged, and `arr_.swap`
exchanges the two pointers. -/
def swap_mem (v other : SimpleVectorObj) : SimpleVectorObj × SimpleVectorObj :=
  ({ size_ := other.size_, capacity_ := other.capacity_, arr_ := other.arr_ },
   { size_ := v.size_, capacity_ := v.capacity_, arr_ := v.arr_ })

/-- The destructor of a `SimpleVector`: its member `arr_` releases the block it holds. -/
def destroy (h : Heap T) (o : SimpleVectorObj) : Heap T :=
  Heap.release h o.arr_

/-- Source: `operator=(const SimpleVector& rhs)` on objects in memory: the temporary `vec` is
copy-constructed from `rhs`, swapped with the vector, and destroyed on return with the block
the vector held before. The heap after the call, and the vector. -/
def operator_assign_mem (raw : Nat → T) (h : Heap T) (v rhs : SimpleVectorObj)
    (same_object : Bool) : Heap T × SimpleVectorObj :=
  if same_object then (h, v)
  else
    let h1 : Heap T := (copy_ctor_mem raw h rhs).1
    let vec : SimpleVectorObj := (copy_ctor_mem raw h rhs).2
    (destroy h1 (swap_mem v vec).2, (swap_mem v vec).1)

/-- The assignment `v[index] = x` through the reference that `operator[]` returns, on an
object in memory: the heap after it. -/
def assign_index (h : Heap T) (v : SimpleVectorObj) (index : Nat) (x : T) : Heap T :=
  Heap.store h v.arr_ ((Heap.cells h v.arr_).set index x)

end Memory


/-! ## The loops, cell by cell -/

section AlgorithmLemmas

variable {T : Type} [Inhabited T]

theorem fill_loop_length (n : Nat) (buf : List T) (first : Nat) (value : T) :
    (fill_loop n buf first value).length = buf.length := by
  induction n generalizing buf first with
  | zero => rfl
  | succ n ih => simp [fill_loop, ih]

theorem copy_loop_length (n : Nat) (src : List T) (first : Nat) (dst : List T) (d : Nat) :
    (copy_loop n src first dst d).length = dst.length := by
  induction n generalizing first dst d with
  | zero => rfl
  | succ n ih => simp [copy_loop, ih]

theorem move_loop_length (n : Nat) (buf : List T) (first d : Nat) :
    (move_loop n buf first d).length = buf.length := by
  induction n generalizing buf first d with
  | zero => rfl
  | succ n ih => simp [move_loop, ih]

theorem copy_backward_loop_length (n : Nat) (buf : List T) (last d : Nat) :
    (copy_backward_loop n buf last d).length = buf.length := by
  induction n generalizing buf last d with
  | zero => rfl
  | succ n ih => simp [copy_backward_loop, ih]

theorem fill_loop_getElem? (n : Nat) (buf : List T) (first : Nat) (value : T) (i : Nat) :
    (fill_loop n buf first value)[i]? =
      if first ≤ i ∧ i < first + n ∧ i < buf.length then some value else buf[i]? := by
  induction n generalizing buf first with
  | zero => rw [if_neg (by omega)]; rfl
  | succ n ih =>
    simp only [fill_loop, ih, List.getElem?_set, List.length_set]
    split_ifs
    all_goals first
      | rfl
      | (exfalso; omega)
      | (rw [List.getElem?_eq_none]; omega)

theorem copy_loop_getElem? (n : Nat) (src : List T) (first : Nat) (dst : List T) (d i : Nat) :
    (copy_loop n src first dst d)[i]? =
      if d ≤ i ∧ i < d + n ∧ i < dst.length then some (src.getD (first + (i - d)) default)
      else dst[i]? := by
  induction n generalizing first dst d with
  | zero => rw [if_neg (by omega)]; rfl
  | succ n ih =>
    simp only [copy_loop, ih, List.getElem?_set, List.length_set]
    split_ifs
    all_goals first
      | rfl
      | (exfalso; omega)
      | (congr 2; omega)
      | (subst_vars; simp; done)
      | (rw [List.getElem?_eq_none]; omega)

theorem move_loop_getElem? (n : Nat) (buf : List T) (first d i : Nat) (hd : d ≤ first) :
    (move_loop n buf first d)[i]? =
      if d ≤ i ∧ i < d + n ∧ i < buf.length then some (buf.getD (first + (i - d)) default)
      else buf[i]? := by
  induction n generalizing buf first d with
  | zero => rw [if_neg (by omega)]; rfl
  | succ n ih =>
    simp only [move_loop, ih _ _ _ (Nat.succ_le_succ hd), List.getElem?_set, List.length_set,
      List.getD_eq_getElem?_getD]
    split_ifs
    all_goals first
      | rfl
      | (exfalso; omega)
      | (congr 3; omega)
      | (subst_vars; simp; done)
      | (rw [List.getElem?_eq_none]; omega)

theorem copy_backward_loop_getElem? (n : Nat) (buf : List T) (last k i : Nat) (hn : n ≤ last) :
    (copy_backward_loop n buf last (last + k))[i]? =
      if last + k - n ≤ i ∧ i < last + k ∧ i < buf.length
      then some (buf.getD (i - k) default) else buf[i]? := by
  induction n generalizing buf last with
  | zero => rw [if_neg (by omega)]; rfl
  | succ n ih =>
    have e : last + k - 1 = (last - 1) + k := by omega
    simp only [copy_backward_loop, e, ih _ _ (by omega : n ≤ last - 1), List.getElem?_set,
      List.length_set, List.getD_eq_getElem?_getD]
    split_ifs
    all_goals first
      | rfl
      | (exfalso; omega)
      | (congr 3; omega)
      | (subst_vars; simp; done)
      | (rw [List.getElem?_eq_none]; omega)

end AlgorithmLemmas

/-! ## Blocks after the standard algorithms -/

section BlockLemmas

variable {T : Type} [Inhabited T]

theorem alloc_length (raw : Nat → T) (n : Nat) : (ArrayPtr.alloc raw n).length = n := by
  simp [ArrayPtr.alloc]

theorem std_fill_length (buf : List T) (first last : Nat) (value : T) :
    (std_fill buf first last value).length = buf.length :=
  fill_loop_length _ _ _ _

theorem std_copy_length (src : List T) (first last : Nat) (dst : List T) (d : Nat) :
    (std_copy src first last dst d).length = dst.length :=
  copy_loop_length _ _ _ _ _

theorem std_move_length (buf : List T) (first last d : Nat) :
    (std_move buf first last d).length = buf.length :=
  move_loop_length _ _ _ _

theorem std_copy_backward_length (buf : List T) (first last d : Nat) :
    (std_copy_backward buf first last d).length = buf.length :=
  copy_backward_loop_length _ _ _ _

/-- A whole fresh block filled with one value. -/
theorem fill_alloc (raw : Nat → T) (n : Nat) (value : T) :
    std_fill (ArrayPtr.alloc raw n) 0 n value = List.replicate n value := by
  apply List.ext_getElem?
  intro i
  rw [std_fill, fill_loop_getElem?, alloc_length, List.getElem?_replicate]
  by_cases h : i < n
  · rw [if_pos (by omega), if_pos h]
  · rw [if_neg (by omega), if_neg h, List.getElem?_eq_none]
    rw [alloc_length]; omega

/-- Copying the first `n` cells of `src` to the front of `dst`. -/
theorem copy_front (src dst : List T) (n : Nat) (hs : n ≤ src.length) (hd : n ≤ dst.length) :
    std_copy src 0 n dst 0 = src.take n ++ dst.drop n := by
  apply List.ext_getElem?
  intro i
  rw [std_copy, copy_loop_getElem?, List.getElem?_append, List.length_take,
    List.getElem?_take, List.getElem?_drop, List.getD_eq_getElem?_getD]
  by_cases h : i < n
  · rw [if_pos (by omega), if_pos (by omega), if_pos h]
    have : 0 + (i - 0) = i := by omega
    rw [this, List.getElem?_eq_getElem (by omega)]
    rfl
  · rw [if_neg (by omega), if_neg (by omega)]
    congr 1
    omega

theorem some_getD (b : List T) (j : Nat) (h : j < b.length) :
    some (b.getD j default) = b[j]? := by
  rw [List.getD_eq_getElem?_getD, List.getElem?_eq_getElem h]
  rfl

/-- Writing one value right after the first `s` cells. -/
theorem push_cells (b : List T) (s : Nat) (x : T) (h : s < b.length) :
    (b.set s x).take (s + 1) = b.take s ++ [x] := by
  apply List.ext_getElem?
  intro i
  simp only [List.getElem?_take, List.getElem?_set, List.getElem?_append, List.length_take,
    List.getElem?_cons]
  split_ifs <;> first | rfl | (exfalso; omega)

/-- The cells after the shift of `Insert` and the write of the new value. -/
theorem insert_cells (b : List T) (s p : Nat) (x : T) (hp : p ≤ s) (hs : s < b.length) :
    ((std_copy_backward b p s (s + 1)).set p x).take (s + 1) =
      (b.take s).take p ++ x :: (b.take s).drop p := by
  apply List.ext_getElem?
  intro i
  simp only [std_copy_backward, List.getElem?_take, List.getElem?_set,
    copy_backward_loop_getElem? _ _ _ 1 _ (Nat.sub_le s p), copy_backward_loop_length,
    List.getElem?_append, List.length_take, List.getElem?_cons, List.getElem?_drop]
  split_ifs
  all_goals first
    | rfl
    | (exfalso; omega)
    | (rw [some_getD _ _ (by omega)]; congr 1; omega)

/-- The cells after the shift of `Erase`. -/
theorem erase_cells (b : List T) (s p : Nat) (hp : p < s) (hs : s ≤ b.length) :
    (std_move b (p + 1) s p).take (s - 1) = (b.take s).eraseIdx p := by
  apply List.ext_getElem?
  intro i
  simp only [std_move, List.getElem?_take, move_loop_getElem? _ _ _ _ _ (Nat.le_succ p),
    List.getElem?_eraseIdx]
  split_ifs
  all_goals first
    | rfl
    | (exfalso; omega)
    | (rw [some_getD _ _ (by omega)]; congr 1; omega)

end BlockLemmas

/-! ## The member functions on well-formed vectors -/

namespace SimpleVector

variable {T : Type} [Inhabited T]

theorem ofSize_eq (raw : Nat → T) (n : Nat) :
    ofSize raw n = { size_ := n, capacity_ := n, arr_ := List.replicate n default } := by
  simp only [ofSize, fill_alloc]

theorem Resize_size (raw : Nat → T) (v : SimpleVector T) (n : Nat) :
    (Resize raw v n).size_ = n := by
  unfold Resize
  split_ifs <;> rfl

theorem Resize_capacity (raw : Nat → T) (v : SimpleVector T) (n : Nat) :
    (Resize raw v n).capacity_ =
      if n ≤ v.size_ ∨ n < v.capacity_ then v.capacity_ else max n (v.capacity_ * 2) := by
  unfold Resize
  split_ifs <;> first | rfl | (exfalso; omega)

theorem Resize_WF (raw : Nat → T) (v : SimpleVector T) (n : Nat) (h : WF v) :
    WF (Resize raw v n) := by
  obtain ⟨h1, h2⟩ := h
  unfold Resize
  split_ifs with c1 c2
  · exact ⟨by simp only; omega, h2⟩
  · exact ⟨by simp only; omega, by simp only [std_fill_length]; exact h2⟩
  · refine ⟨by simp only [ofSize_eq]; omega, ?_⟩
    simp only [ofSize_eq, std_copy_length, List.length_replicate]

theorem Resize_elems (raw : Nat → T) (v : SimpleVector T) (n : Nat) (h : WF v) :
    elems (Resize raw v n) = (elems v).take n ++ List.replicate (n - v.size_) default := by
  obtain ⟨h1, h2⟩ := h
  apply List.ext_getElem?
  intro i
  unfold Resize elems
  split_ifs with c1 c2
  · have e : n - v.size_ = 0 := by omega
    simp only [e, List.replicate_zero, List.append_nil, List.take_take]
    rw [Nat.min_eq_left c1]
  · simp only [std_fill, List.getElem?_take, fill_loop_getElem?, List.getElem?_append,
      List.length_take, List.getElem?_replicate]
    split_ifs <;> first | rfl | (exfalso; omega)
  · simp only [ofSize_eq]
    rw [copy_front _ _ _ (by omega) (by simp only [List.length_replicate]; omega)]
    simp only [List.getElem?_take, List.getElem?_append, List.length_take,
      List.getElem?_replicate, List.getElem?_drop, List.length_replicate]
    split_ifs <;> first | rfl | (exfalso; omega)

theorem Reserve_size (raw : Nat → T) (v : SimpleVector T) (c : Nat) :
    (Reserve raw v c).size_ = v.size_ := by
  unfold Reserve
  split_ifs <;> rfl

theorem Reserve_capacity (raw : Nat → T) (v : SimpleVector T) (c : Nat) :
    (Reserve raw v c).capacity_ = max c v.capacity_ := by
  unfold Reserve
  split_ifs with h
  · simp only; omega
  · omega

theorem Reserve_WF (raw : Nat → T) (v : SimpleVector T) (c : Nat) (h : WF v) :
    WF (Reserve raw v c) := by
  obtain ⟨h1, h2⟩ := h
  unfold Reserve
  split_ifs with c1
  · refine ⟨by simp only; omega, ?_⟩
    simp only [ofSize_eq, std_copy_length, List.length_replicate]
  · exact ⟨h1, h2⟩

theorem Reserve_elems (raw : Nat → T) (v : SimpleVector T) (c : Nat) (h : WF v) :
    elems (Reserve raw v c) = elems v := by
  obtain ⟨h1, h2⟩ := h
  unfold Reserve elems
  split_ifs with c1
  · simp only [ofSize_eq]
    rw [copy_front _ _ _ (by omega) (by simp only [List.length_replicate]; omega)]
    rw [List.take_append_of_le_length (by simp only [List.length_take]; omega)]
    rw [List.take_take, Nat.min_self]
  · rfl

theorem elems_length (v : SimpleVector T) (h : WF v) : (elems v).length = v.size_ := by
  obtain ⟨h1, h2⟩ := h
  simp only [elems, List.length_take]
  omega

/-- The cells that held the elements before `Resize` hold them after it. -/
theorem Resize_take_old (raw : Nat → T) (v : SimpleVector T) (n : Nat) (h : WF v)
    (hn : v.size_ ≤ n) : (Resize raw v n).arr_.take v.size_ = elems v := by
  have e1 : (Resize raw v n).arr_.take v.size_ = (elems (Resize raw v n)).take v.size_ := by
    simp only [elems, Resize_size, List.take_take, Nat.min_eq_left hn]
  have e2 : (elems v).take n = elems v :=
    List.take_of_length_le (by rw [elems_length v h]; exact hn)
  rw [e1, Resize_elems raw v n h, e2]
  exact List.take_left' (elems_length v h)

/-! ### Reference arguments -/

theorem PushBack_outside (raw : Nat → T) (v : SimpleVector T) (x : T) :
    PushBack raw v (Ref.outside x) = .ok (PushBack_result raw v x) :=
  rfl

theorem PushBack_result_eq (raw : Nat → T) (v : SimpleVector T) (x : T) :
    PushBack_result raw v x =
      (let v1 : SimpleVector T :=
        if v.size_ = v.capacity_ then
          let tmp_size := v.size_
          { Resize raw v (v.capacity_ + 1) with size_ := tmp_size }
        else v
      { v1 with arr_ := v1.arr_.set v1.size_ x, size_ := v1.size_ + 1 }) :=
  rfl

/-- A call of `PushBack` that returns leaves what the call with an outside object holding
the value read would leave. -/
theorem PushBack_ok_outside (raw : Nat → T) (v w : SimpleVector T) (r : Ref T)
    (h : PushBack raw v r = .ok w) : ∃ x, w = PushBack_result raw v x := by
  unfold PushBack at h
  simp only at h
  split at h
  · cases h
  · rename_i x hx
    exact ⟨x, (Except.ok.inj h).symm⟩

theorem Insert_outside_eq (raw : Nat → T) (v : SimpleVector T) (p : Nat) (x : T) :
    Insert raw v p (Ref.outside x) =
      (if p ≤ v.size_ then
        let tmp_size := v.size_
        let v1 : SimpleVector T :=
          if v.size_ = v.capacity_ then
            Resize raw v (if v.capacity_ = 0 then 1 else v.capacity_ * 2)
          else v
        let v2 : SimpleVector T := { v1 with size_ := tmp_size + 1 }
        let v3 : SimpleVector T :=
          { v2 with arr_ := std_copy_backward v2.arr_ p (v2.size_ - 1) v2.size_ }
        .ok ({ v3 with arr_ := v3.arr_.set p x }, p)
      else .error Failure.assertion) :=
  rfl

/-- A call of `Insert` that returns leaves what the call with an outside object holding the
value read would leave. -/
theorem Insert_ok_outside (raw : Nat → T) (v w : SimpleVector T) (p it : Nat) (r : Ref T)
    (h : Insert raw v p r = .ok (w, it)) :
    ∃ x, Insert raw v p (Ref.outside x) = .ok (w, it) := by
  unfold Insert at h
  by_cases hp : p ≤ v.size_
  · rw [if_pos hp] at h
    simp only at h
    split at h
    · cases h
    · rename_i x hx
      refine ⟨x, ?_⟩
      rw [Insert_outside_eq, if_pos hp, ← h]
  · rw [if_neg hp] at h
    cases h

theorem PushBack_size (raw : Nat → T) (v : SimpleVector T) (x : T) :
    (PushBack_result raw v x).size_ = v.size_ + 1 := by
  rw [PushBack_result_eq]
  split_ifs <;> rfl

theorem PushBack_capacity (raw : Nat → T) (v : SimpleVector T) (x : T) :
    (PushBack_result raw v x).capacity_ =
      if v.size_ = v.capacity_ then max (v.capacity_ + 1) (v.capacity_ * 2)
      else v.capacity_ := by
  rw [PushBack_result_eq]
  split_ifs with c
  · simp only [Resize_capacity]
    rw [if_neg (by omega)]
  · rfl

theorem PushBack_WF (raw : Nat → T) (v : SimpleVector T) (x : T) (h : WF v) :
    WF (PushBack_result raw v x) := by
  refine ⟨?_, ?_⟩
  · rw [PushBack_size, PushBack_capacity]
    have := h.1
    split_ifs <;> omega
  · rw [PushBack_capacity]
    rw [PushBack_result_eq]
    split_ifs with c
    · have hw := (Resize_WF raw v (v.capacity_ + 1) h).2
      rw [Resize_capacity, if_neg (by omega)] at hw
      simp only [List.length_set]
      exact hw
    · simp only [List.length_set]
      exact h.2

theorem PushBack_elems (raw : Nat → T) (v : SimpleVector T) (x : T) (h : WF v) :
    elems (PushBack_result raw v x) = elems v ++ [x] := by
  rw [PushBack_result_eq]
  unfold elems
  split_ifs with c
  · have hw := (Resize_WF raw v (v.capacity_ + 1) h).2
    rw [Resize_capacity, if_neg (by omega)] at hw
    simp only
    rw [push_cells _ _ _ (by omega), Resize_take_old raw v _ h (by omega)]
    rfl
  · have h1 := h.1
    have h2 := h.2
    simp only
    rw [push_cells _ _ _ (by omega)]

theorem Insert_ok (raw : Nat → T) (v : SimpleVector T) (p : Nat) (x : T) (hp : p ≤ v.size_) :
    ∃ w, Insert raw v p (Ref.outside x) = .ok (w, p) ∧ w.size_ = v.size_ + 1 ∧
      w.capacity_ = (if v.size_ = v.capacity_ then
        (if v.capacity_ = 0 then 1 else v.capacity_ * 2) else v.capacity_) := by
  rw [Insert_outside_eq]
  rw [if_pos hp]
  refine ⟨_, rfl, rfl, ?_⟩
  split_ifs with c1 c2
  · simp only [Resize_capacity]
    rw [if_neg (by omega)]
    omega
  · simp only [Resize_capacity]
    rw [if_neg (by omega)]
    omega
  · rfl

theorem Insert_spec (raw : Nat → T) (v w : SimpleVector T) (p it : Nat) (x : T) (h : WF v)
    (hi : Insert raw v p (Ref.outside x) = .ok (w, it)) :
    WF w ∧ it = p ∧ p ≤ v.size_ ∧ w.size_ = v.size_ + 1 ∧
      elems w = (elems v).take p ++ x :: (elems v).drop p := by
  have h1 := h.1
  have h2 := h.2
  rw [Insert_outside_eq] at hi
  generalize hn : (if v.capacity_ = 0 then 1 else v.capacity_ * 2) = n at hi
  have hn1 : v.capacity_ + 1 ≤ n := by rw [← hn]; split_ifs <;> omega
  split_ifs at hi with hp c
  · -- the vector was full
    simp only [Except.ok.injEq, Prod.mk.injEq] at hi
    obtain ⟨hw, hit⟩ := hi
    subst hw
    have hlen := (Resize_WF raw v n h).2
    have hc := Resize_capacity raw v n
    rw [if_neg (by omega)] at hc
    have hcap : v.size_ + 1 ≤ (Resize raw v n).capacity_ := by
      rw [hc]; exact le_trans (by omega) (Nat.le_max_left _ _)
    refine ⟨⟨hcap, ?_⟩, hit.symm, hp, rfl, ?_⟩
    · simp only [List.length_set, std_copy_backward_length]
      exact hlen
    · simp only [elems, Nat.add_sub_cancel]
      rw [insert_cells _ _ _ _ hp (by omega), Resize_take_old raw v _ h (by omega)]
      rfl
  · simp only [Except.ok.injEq, Prod.mk.injEq] at hi
    obtain ⟨hw, hit⟩ := hi
    subst hw
    refine ⟨⟨by simp only; omega, ?_⟩, hit.symm, hp, rfl, ?_⟩
    · simp only [List.length_set, std_copy_backward_length]
      exact h2
    · simp only [elems, Nat.add_sub_cancel]
      rw [insert_cells _ _ _ _ hp (by omega)]

theorem Erase_ok (v : SimpleVector T) (p : Nat) (hp : p < v.size_) :
    ∃ w, Erase v p = .ok (w, p) ∧ w.size_ = v.size_ - 1 ∧ w.capacity_ = v.capacity_ := by
  unfold Erase
  rw [if_pos hp]
  exact ⟨_, rfl, rfl, rfl⟩

theorem Erase_spec (v w : SimpleVector T) (p it : Nat) (h : WF v)
    (he : Erase v p = .ok (w, it)) :
    WF w ∧ it = p ∧ p < v.size_ ∧ w.size_ = v.size_ - 1 ∧ w.capacity_ = v.capacity_ ∧
      elems w = (elems v).eraseIdx p := by
  have h1 := h.1
  have h2 := h.2
  unfold Erase at he
  split_ifs at he with hp
  simp only [Except.ok.injEq, Prod.mk.injEq] at he
  obtain ⟨hw, hit⟩ := he
  subst hw
  refine ⟨⟨by simp only; omega, ?_⟩, hit.symm, hp, rfl, rfl, ?_⟩
  · simp only [std_move_length]
    exact h2
  · simp only [elems]
    rw [erase_cells _ _ _ hp (by omega)]

theorem copy_ctor_WF (raw : Nat → T) (other : SimpleVector T) : WF (copy_ctor raw other) :=
  ⟨Nat.le_refl _, by simp only [copy_ctor, std_copy_length, alloc_length]⟩

theorem PopBack_WF (v : SimpleVector T) (h : WF v) : WF (PopBack v) := by
  obtain ⟨h1, h2⟩ := h
  unfold PopBack
  split_ifs
  · exact ⟨by simp only; omega, h2⟩
  · exact ⟨h1, h2⟩

/-- Every vector a program can hold owns a block of `capacity_` cells, of which it uses
`size_`. -/
theorem Reachable.wf {v : SimpleVector T} (hv : Reachable v) : WF v := by
  induction hv with
  | default_ctor => exact ⟨Nat.le_refl _, rfl⟩
  | sized raw size =>
    exact ⟨Nat.le_refl _, by simp only [ofSize, std_fill_length, alloc_length]⟩
  | sized_fill raw size value =>
    exact ⟨Nat.le_refl _, by simp only [ofSizeValue, std_fill_length, alloc_length]⟩
  | init_list raw init =>
    exact ⟨Nat.le_refl _, by simp only [ofInit, std_copy_length, alloc_length]⟩
  | copy raw _ _ => exact copy_ctor_WF raw _
  | move raw _ _ => exact copy_ctor_WF raw _
  | moved_from raw _ ih => exact ⟨Nat.zero_le _, ih.2⟩
  | reserve_proxy raw obj => exact ⟨Nat.zero_le _, by simp only [ofReserve, alloc_length]⟩
  | clear _ ih => exact ⟨Nat.zero_le _, ih.2⟩
  | resize raw n _ ih => exact Resize_WF raw _ n ih
  | reserve raw c _ ih => exact Reserve_WF raw _ c ih
  | push_back raw r _ hp ih =>
    obtain ⟨x, hx⟩ := PushBack_ok_outside raw _ _ r hp
    rw [hx]
    exact PushBack_WF raw _ x ih
  | insert raw p r it _ hi ih =>
    obtain ⟨x, hx⟩ := Insert_ok_outside raw _ _ p it r hi
    exact (Insert_spec raw _ _ p it x ih hx).1
  | pop_back _ ih => exact PopBack_WF _ ih
  | erase p it _ he ih => exact (Erase_spec _ _ p it ih he).1
  | swap_this _ _ _ ih2 => exact ih2
  | swap_other _ _ ih1 _ => exact ih1
  | @assign raw v rhs _ _ _ _ => exact copy_ctor_WF raw rhs
  | assign_self raw _ ih => exact ih

theorem pushAll_spec (raw : Nat → T) (xs : List T) (v : SimpleVector T) (h : WF v) :
    WF (pushAll_result raw v xs) ∧ (pushAll_result raw v xs).size_ = v.size_ + xs.length ∧
      elems (pushAll_result raw v xs) = elems v ++ xs := by
  induction xs generalizing v with
  | nil => exact ⟨h, rfl, (List.append_nil _).symm⟩
  | cons x xs ih =>
    obtain ⟨a, b, c⟩ := ih (PushBack_result raw v x) (PushBack_WF raw v x h)
    refine ⟨a, ?_, ?_⟩
    · show (pushAll_result raw (PushBack_result raw v x) xs).size_ = _
      rw [b, PushBack_size, List.length_cons]
      omega
    · show elems (pushAll_result raw (PushBack_result raw v x) xs) = _
      rw [c, PushBack_elems raw v x h, List.append_assoc]
      rfl

theorem pushAll_capacity (raw : Nat → T) (xs : List T) (v : SimpleVector T)
    (h : v.size_ + xs.length ≤ v.capacity_) :
    (pushAll_result raw v xs).capacity_ = v.capacity_ := by
  induction xs generalizing v with
  | nil => rfl
  | cons x xs ih =>
    rw [List.length_cons] at h
    have hc : (PushBack_result raw v x).capacity_ = v.capacity_ := by
      rw [PushBack_capacity, if_neg (by omega)]
    show (pushAll_result raw (PushBack_result raw v x) xs).capacity_ = _
    rw [ih (PushBack_result raw v x) (by rw [PushBack_size, hc]; omega), hc]

theorem pushAll_ok (raw : Nat → T) (xs : List T) (v : SimpleVector T) :
    pushAll raw v xs = .ok (pushAll_result raw v xs) := by
  induction xs generalizing v with
  | nil => rfl
  | cons x xs ih =>
    show (match PushBack raw v (Ref.outside x) with
      | .ok w => pushAll raw w xs
      | .error e => .error e) = _
    rw [PushBack_outside]
    exact ih (PushBack_result raw v x)

end SimpleVector

/-! ### Blocks in memory -/

section MemoryLemmas

variable {T : Type} [Inhabited T]

theorem cells_congr (h1 h2 : Heap T) (a : Nat) (e : h1[a]? = h2[a]?) :
    Heap.cells h1 (some a) = Heap.cells h2 (some a) := by
  unfold Heap.cells
  simp only [e]

theorem cells_set_ne (h : Heap T) (a b : Nat) (x : Option (List T)) (hne : a ≠ b) :
    Heap.cells (h.set a x) (some b) = Heap.cells h (some b) :=
  cells_congr _ _ b (by rw [List.getElem?_set, if_neg hne])

theorem cells_store_ne (h : Heap T) (ptr : Ptr) (cells : List T) (b : Nat)
    (hne : ptr ≠ some b) :
    Heap.cells (Heap.store h ptr cells) (some b) = Heap.cells h (some b) := by
  cases ptr with
  | none => rfl
  | some a => exact cells_set_ne h a b _ (fun c => hne (by rw [c]))

theorem cells_release_ne (h : Heap T) (ptr : Ptr) (b : Nat) (hne : ptr ≠ some b) :
    Heap.cells (Heap.release h ptr) (some b) = Heap.cells h (some b) := by
  cases ptr with
  | none => rfl
  | some a => exact cells_set_ne h a b _ (fun c => hne (by rw [c]))

/-- What the copy constructor does in memory: the object constructed holds the null pointer
or the address of a new block, every block that was allocated is as it was, and the new
block holds what the constructor on vectors gives. -/
theorem copy_ctor_mem_spec (raw : Nat → T) (h : Heap T) (other : SimpleVectorObj)
    (hvalid : ∀ a, other.arr_ = some a → a < h.length) :
    ((copy_ctor_mem raw h other).2.arr_ = none ∨
      (copy_ctor_mem raw h other).2.arr_ = some h.length) ∧
    (∀ b, b < h.length → (copy_ctor_mem raw h other).1[b]? = h[b]?) ∧
    SimpleVectorObj.view (copy_ctor_mem raw h other).1 (copy_ctor_mem raw h other).2 =
      SimpleVector.copy_ctor raw (SimpleVectorObj.view h other) := by
  unfold copy_ctor_mem Heap.allocate
  by_cases hz : other.size_ = 0
  · simp only [if_pos hz]
    refine ⟨Or.inl trivial, fun b _ => rfl, ?_⟩
    simp only [SimpleVectorObj.view, SimpleVector.copy_ctor, hz, Heap.store, Heap.cells,
      std_copy, copy_loop, ArrayPtr.alloc, List.range_zero, List.map_nil]
  · simp only [if_neg hz]
    have hold : Heap.cells (h ++ [some (ArrayPtr.alloc raw other.size_)]) other.arr_ =
        Heap.cells h other.arr_ := by
      cases ho : other.arr_ with
      | none => rfl
      | some a =>
        exact cells_congr _ _ a
          (by rw [List.getElem?_append, if_pos (hvalid a ho)])
    have hnew : Heap.cells (h ++ [some (ArrayPtr.alloc raw other.size_)]) (some h.length) =
        ArrayPtr.alloc raw other.size_ := by
      simp [Heap.cells]
    refine ⟨Or.inr trivial, ?_, ?_⟩
    · intro b hb
      simp only [Heap.store]
      rw [List.getElem?_set, if_neg (by omega), List.getElem?_append, if_pos hb]
    · simp only [SimpleVectorObj.view, SimpleVector.copy_ctor, Heap.store, hold, hnew]
      congr 1
      simp [Heap.cells]

theorem view_of_old (mem mem' : Heap T) (o : SimpleVectorObj)
    (hvalid : ∀ a, o.arr_ = some a → a < mem.length)
    (hold : ∀ b, b < mem.length → mem'[b]? = mem[b]?) :
    SimpleVectorObj.view mem' o = SimpleVectorObj.view mem o := by
  unfold SimpleVectorObj.view
  congr 1
  cases ho : o.arr_ with
  | none => rfl
  | some a => exact cells_congr _ _ a (hold a (hvalid a ho))

theorem view_store_other (mem : Heap T) (o : SimpleVectorObj) (ptr : Ptr) (cells : List T)
    (hne : ∀ a, ptr = some a → o.arr_ ≠ some a) :
    SimpleVectorObj.view (Heap.store mem ptr cells) o = SimpleVectorObj.view mem o := by
  unfold SimpleVectorObj.view
  congr 1
  cases ho : o.arr_ with
  | none => rfl
  | some b => exact cells_store_ne mem ptr cells b (fun c => hne b c ho)

theorem view_release_other (mem : Heap T) (o : SimpleVectorObj) (ptr : Ptr)
    (hne : ∀ a, ptr = some a → o.arr_ ≠ some a) :
    SimpleVectorObj.view (Heap.release mem ptr) o = SimpleVectorObj.view mem o := by
  unfold SimpleVectorObj.view
  congr 1
  cases ho : o.arr_ with
  | none => rfl
  | some b => exact cells_release_ne mem ptr b (fun c => hne b c ho)

/-- The block of a copy is no block that was allocated before the copy was made. -/
theorem copy_ctor_mem_fresh (raw : Nat → T) (mem : Heap T) (other o : SimpleVectorObj)
    (hother : ∀ a, other.arr_ = some a → a < mem.length)
    (ho : ∀ a, o.arr_ = some a → a < mem.length) :
    ∀ a, (copy_ctor_mem raw mem other).2.arr_ = some a → o.arr_ ≠ some a := by
  intro a ha c
  have hlt := ho a c
  rcases (copy_ctor_mem_spec raw mem other hother).1 with hn | hs
  · rw [hn] at ha
    cases ha
  · rw [hs] at ha
    have := Option.some.inj ha
    omega

end MemoryLemmas

namespace SimpleVector

variable {T : Type} [Inhabited T]

/-! ## The claims -/

/-- C1. Every vector obtained from a constructor (default, sized, sized-fill,
initializer-list, copy, move, reserve-proxy) by a finite sequence of `Clear`, `Resize`,
`Reserve`, `PushBack`, `Insert` at a position in `[0, size]`, `PopBack`, `Erase` at a
position in `[0, size)`, `swap` and copy-assignment has `size <= capacity`. -/
theorem C1_size_le_capacity (v : SimpleVector T) (hv : Reachable v) :
    v.size_ ≤ v.capacity_ :=
  (Reachable.wf hv).1

theorem C1_size_le_capacity_witness :
    (PopBack (PushBack_result rawCells (ofSizeValue rawCells 2 7) 3)).size_ ≤
      (PopBack (PushBack_result rawCells (ofSizeValue rawCells 2 7) 3)).capacity_ :=
  C1_size_le_capacity _
    (Reachable.pop_back
      (Reachable.push_back rawCells (Ref.outside 3) (Reachable.sized_fill rawCells 2 7)
        (PushBack_outside rawCells (ofSizeValue rawCells 2 7) 3)))

/-- C2. `At(i)` throws `std::out_of_range` exactly when `i >= size`, whatever the size; when
`i < size` it returns, leaves the vector as it was, and yields the element `operator[](i)`
yields. -/
theorem C2_At_checked (v : SimpleVector T) (i : Nat) :
    (At v i = .error Failure.out_of_range ↔ i ≥ v.size_) ∧
    ((∃ e, At v i = .error e) ↔ i ≥ v.size_) ∧
    (i < v.size_ →
      At v i = .ok (v.arr_.getD i default, v) ∧ operator_index v i = At v i) := by
  unfold At operator_index
  by_cases h : i ≥ v.size_
  · rw [if_pos h]
    exact ⟨⟨fun _ => h, fun _ => rfl⟩, ⟨fun _ => h, fun _ => ⟨_, rfl⟩⟩,
      fun h' => absurd h (by omega)⟩
  · rw [if_neg h, if_pos (by omega)]
    exact ⟨⟨fun c => (by cases c), fun c => absurd c h⟩,
      ⟨fun ⟨e, c⟩ => (by cases c), fun c => absurd c h⟩, fun _ => ⟨rfl, rfl⟩⟩

theorem C2_At_checked_witness :
    At (ofInit rawCells [4, 5, 6]) 1 = .ok (5, ofInit rawCells [4, 5, 6]) ∧
    operator_index (ofInit rawCells [4, 5, 6]) 1 = At (ofInit rawCells [4, 5, 6]) 1 ∧
    At (new : SimpleVector Nat) 0 = .error Failure.out_of_range :=
  ⟨((C2_At_checked (ofInit rawCells [4, 5, 6]) 1).2.2 (by decide)).1,
   ((C2_At_checked (ofInit rawCells [4, 5, 6]) 1).2.2 (by decide)).2,
   (C2_At_checked (new : SimpleVector Nat) 0).1.mpr (by decide)⟩

/-- C3. Starting from the default-constructed vector and calling `PushBack` on each value of
`xs` in order returns a vector of size `length xs` whose elements are `xs` in order; and
after every single one of the pushes `capacity >= size`. -/
theorem C3_push_back_sequence (raw : Nat → T) (xs : List T) :
    ∃ w, pushAll raw new xs = .ok w ∧
      w.size_ = xs.length ∧
      elems w = xs ∧
      ∀ k, k ≤ xs.length →
        ∃ u, pushAll raw new (xs.take k) = .ok u ∧ u.size_ ≤ u.capacity_ := by
  have h0 : WF (new : SimpleVector T) := ⟨Nat.le_refl _, rfl⟩
  obtain ⟨_, b, c⟩ := pushAll_spec raw xs new h0
  refine ⟨_, pushAll_ok raw xs new, ?_, ?_, ?_⟩
  · rw [b]; exact Nat.zero_add _
  · rw [c]; rfl
  · intro k _
    exact ⟨_, pushAll_ok raw (xs.take k) new, (pushAll_spec raw (xs.take k) new h0).1.1⟩

/-- C4, as first stated, fails: `PushBack` on the full vector `[7, 7]` (size 2, capacity 2)
leaves capacity 4, not 2 + 1. And with an argument that is an element of the vector itself,
`v.PushBack(v[0])`, the value is read only after the block that holds it was released. -/
theorem C4_counterexample :
    (ofSizeValue rawCells 2 7).size_ = (ofSizeValue rawCells 2 7).capacity_ ∧
    PushBack rawCells (ofSizeValue rawCells 2 7) (Ref.outside 9) =
      .ok { size_ := 3, capacity_ := 4, arr_ := [7, 7, 9, 0] } ∧
    4 ≠ (ofSizeValue rawCells 2 7).capacity_ + 1 ∧
    PushBack rawCells (ofSizeValue rawCells 2 7) (Ref.cell 0) = .error Failure.dangling := by
  decide

/-- C4, amended. On a vector with `size == capacity`, `PushBack` of a value held by an object
outside the vector returns; it grows the capacity to `max(capacity + 1, capacity * 2)`,
which is twice the capacity, and 1 for capacity 0; it keeps the existing elements, puts the
value at index `size` and adds one to `size`. -/
theorem C4_PushBack_full (raw : Nat → T) (v : SimpleVector T) (x : T) (h : WF v)
    (hfull : v.size_ = v.capacity_) :
    ∃ w, PushBack raw v (Ref.outside x) = .ok w ∧
      w.capacity_ = max (v.capacity_ + 1) (v.capacity_ * 2) ∧
      w.capacity_ = (if v.capacity_ = 0 then 1 else v.capacity_ * 2) ∧
      (elems w).take v.size_ = elems v ∧
      (elems w)[v.size_]? = some x ∧
      w.size_ = v.size_ + 1 := by
  have hc := PushBack_capacity raw v x
  rw [if_pos hfull] at hc
  have he := PushBack_elems raw v x h
  have hl := elems_length v h
  refine ⟨_, PushBack_outside raw v x, hc, ?_, ?_, ?_, PushBack_size raw v x⟩
  · rw [hc]
    split_ifs with c
    · rw [c]; rfl
    · exact Nat.max_eq_right (by omega)
  · rw [he]
    exact List.take_left' hl
  · rw [he, List.getElem?_append, if_neg (by omega), hl, Nat.sub_self]
    rfl

theorem C4_PushBack_full_witness :
    WF (ofSizeValue rawCells 2 7) ∧
    (ofSizeValue rawCells 2 7).size_ = (ofSizeValue rawCells 2 7).capacity_ ∧
    ∃ w, PushBack rawCells (ofSizeValue rawCells 2 7) (Ref.outside 9) = .ok w ∧
      w.capacity_ = max (2 + 1) (2 * 2) ∧
      w.capacity_ = (if 2 = 0 then 1 else 2 * 2) ∧
      (elems w).take 2 = [7, 7] ∧
      (elems w)[2]? = some 9 ∧
      w.size_ = 2 + 1 :=
  ⟨by decide, by decide,
    C4_PushBack_full rawCells (ofSizeValue rawCells 2 7) 9 (by decide) (by decide)⟩

/-- What `Insert` does with a value held by an object outside the vector: on a vector with
elements `xs` (size `n`) and for `0 <= p <= n` it returns; the vector then has size `n + 1`
and elements `xs[0..p)`, then the value, then `xs[p..n)`; the iterator returned is at index
`p`, where the inserted value is. -/
theorem Insert_outside_elems (raw : Nat → T) (v : SimpleVector T) (p : Nat) (x : T)
    (h : WF v) (hp : p ≤ v.size_) :
    ∃ w, Insert raw v p (Ref.outside x) = .ok (w, p) ∧ w.size_ = v.size_ + 1 ∧
      elems w = (elems v).take p ++ x :: (elems v).drop p ∧
      (elems w)[p]? = some x := by
  obtain ⟨w, hw, hs, _⟩ := Insert_ok raw v p x hp
  obtain ⟨_, _, _, _, he⟩ := Insert_spec raw v w p p x h hw
  have hl := elems_length v h
  refine ⟨w, hw, hs, he, ?_⟩
  rw [he, List.getElem?_append, List.length_take, if_neg (by omega)]
  have e : p - min p (elems v).length = 0 := by omega
  rw [e, List.getElem?_cons_zero]

/-- C5, at the failing input. The vector `[1, 2, 3]` with capacity 10 and the call
`v.Insert(v.begin(), v[2])`: the argument is the element 3, and `Insert` leaves
`[2, 1, 2, 3]`, with 2 at the iterator it returns, where the claim has `[3, 1, 2, 3]`. The
same value in an object outside the vector gives `[3, 1, 2, 3]`. On the full vector
`[1, 2, 3]` the same call reads the argument after its block was released. -/
theorem C5_Insert_aliased_argument :
    operator_index (Reserve rawCells (ofInit rawCells [1, 2, 3]) 10) 2 =
      .ok (3, Reserve rawCells (ofInit rawCells [1, 2, 3]) 10) ∧
    Insert rawCells (Reserve rawCells (ofInit rawCells [1, 2, 3]) 10) 0 (Ref.cell 2) =
      .ok ({ size_ := 4, capacity_ := 10, arr_ := [2, 1, 2, 3, 0, 0, 0, 0, 0, 0] }, 0) ∧
    elems ({ size_ := 4, capacity_ := 10, arr_ := [2, 1, 2, 3, 0, 0, 0, 0, 0, 0] } :
      SimpleVector Nat) = [2, 1, 2, 3] ∧
    Insert rawCells (Reserve rawCells (ofInit rawCells [1, 2, 3]) 10) 0 (Ref.outside 3) =
      .ok ({ size_ := 4, capacity_ := 10, arr_ := [3, 1, 2, 3, 0, 0, 0, 0, 0, 0] }, 0) ∧
    Insert rawCells (ofInit rawCells [1, 2, 3]) 0 (Ref.cell 2) = .error Failure.dangling := by
  decide

/-- C6. On a vector with elements `xs` (size `n >= 1`), `Erase(begin() + p)` with
`0 <= p < n` returns; the vector then has size `n - 1`, the elements `xs` without the one
at index `p`, and the capacity it had; the iterator returned is at index `p`, which is
where the element that followed the erased one now is, and is `end()` when `p` was the
last index. -/
theorem C6_Erase (v : SimpleVector T) (p : Nat) (h : WF v) (hp : p < v.size_) :
    ∃ w, Erase v p = .ok (w, p) ∧ w.size_ = v.size_ - 1 ∧
      elems w = (elems v).eraseIdx p ∧ w.capacity_ = v.capacity_ ∧
      (p + 1 < v.size_ → (elems w)[p]? = (elems v)[p + 1]? ∧ (elems w)[p]? ≠ none) ∧
      (p + 1 = v.size_ → p = end_ w) := by
  obtain ⟨w, hw, hs, hc⟩ := Erase_ok v p hp
  obtain ⟨_, _, _, _, _, he⟩ := Erase_spec v w p p h hw
  have hl := elems_length v h
  refine ⟨w, hw, hs, he, hc, ?_, ?_⟩
  · intro hlt
    rw [he, List.getElem?_eraseIdx, if_neg (Nat.lt_irrefl p)]
    refine ⟨rfl, ?_⟩
    rw [List.getElem?_eq_getElem (by omega)]
    exact Option.some_ne_none _
  · intro hlast
    show p = w.size_
    omega

theorem C6_Erase_witness :
    WF (ofSizeValue rawCells 4 7) ∧ 1 < (ofSizeValue rawCells 4 7).size_ ∧
    ∃ w, Erase (ofSizeValue rawCells 4 7) 1 = .ok (w, 1) ∧ w.size_ = 4 - 1 ∧
      elems w = [7, 7, 7] ∧ w.capacity_ = 4 ∧
      (1 + 1 < 4 → (elems w)[1]? = some 7 ∧ (elems w)[1]? ≠ none) ∧
      (1 + 1 = 4 → 1 = end_ w) :=
  ⟨by decide, by decide, C6_Erase (ofSizeValue rawCells 4 7) 1 (by decide) (by decide)⟩

/-- C8. `Resize(n)` on a vector of size `s` sets the size to `n`, leaves every element at an
index `i < min(s, n)` as it was, and makes every element at an index `s <= i < n` equal to
`Type{}`, whatever the cells past the old size held; so after `Resize(n)`, a `Resize(m)` with
`m <= n` keeps the first `m` elements. -/
theorem C8_Resize (raw raw' : Nat → T) (v : SimpleVector T) (n : Nat) (h : WF v) :
    (Resize raw v n).size_ = n ∧
    (∀ i, i < min v.size_ n → (elems (Resize raw v n))[i]? = (elems v)[i]?) ∧
    (∀ i, v.size_ ≤ i → i < n → (elems (Resize raw v n))[i]? = some default) ∧
    (∀ m, m ≤ n →
      elems (Resize raw' (Resize raw v n) m) = (elems (Resize raw v n)).take m) := by
  have he := Resize_elems raw v n h
  have hl := elems_length v h
  refine ⟨Resize_size raw v n, ?_, ?_, ?_⟩
  · intro i hi
    rw [he, List.getElem?_append, List.length_take, if_pos (by omega), List.getElem?_take,
      if_pos (by omega)]
  · intro i h1 h2
    rw [he, List.getElem?_append, List.length_take, if_neg (by omega),
      List.getElem?_replicate, if_pos (by omega)]
  · intro m hm
    rw [Resize_elems raw' _ m (Resize_WF raw v n h), Resize_size]
    have e : m - n = 0 := by omega
    rw [e, List.replicate_zero, List.append_nil]

theorem C8_Resize_witness :
    WF (Resize rawCells (ofInit rawCells [1, 2, 3]) 1) ∧
    elems (Resize rawCells (Resize rawCells (ofInit rawCells [1, 2, 3]) 1) 3) = [1, 0, 0] ∧
    (Resize rawCells (Resize rawCells (ofInit rawCells [1, 2, 3]) 1) 3).size_ = 3 :=
  ⟨by decide, by decide,
    (C8_Resize rawCells rawCells (Resize rawCells (ofInit rawCells [1, 2, 3]) 1) 3
      (by decide)).1⟩

/-- C9. `Reserve(new_capacity)` makes the capacity exactly `new_capacity` when
`new_capacity > capacity` and changes nothing when `new_capacity <= capacity`; in both
cases the size and the elements stay as they were. -/
theorem C9_Reserve (raw : Nat → T) (v : SimpleVector T) (c : Nat) (h : WF v) :
    (c > v.capacity_ → (Reserve raw v c).capacity_ = c) ∧
    (c ≤ v.capacity_ → Reserve raw v c = v) ∧
    (Reserve raw v c).size_ = v.size_ ∧
    elems (Reserve raw v c) = elems v := by
  refine ⟨?_, ?_, Reserve_size raw v c, Reserve_elems raw v c h⟩
  · intro hc
    rw [Reserve_capacity]
    exact Nat.max_eq_left (by omega)
  · intro hc
    unfold Reserve
    rw [if_neg (by omega)]

theorem C9_Reserve_witness :
    WF (ofInit rawCells [1, 2, 3]) ∧
    (Reserve rawCells (ofInit rawCells [1, 2, 3]) 10).capacity_ = 10 ∧
    Reserve rawCells (ofInit rawCells [1, 2, 3]) 2 = ofInit rawCells [1, 2, 3] ∧
    elems (Reserve rawCells (ofInit rawCells [1, 2, 3]) 10) = [1, 2, 3] :=
  ⟨by decide,
    (C9_Reserve rawCells (ofInit rawCells [1, 2, 3]) 10 (by decide)).1 (by decide),
    (C9_Reserve rawCells (ofInit rawCells [1, 2, 3]) 2 (by decide)).2.1 (by decide),
    by decide⟩

/-- C10. From the empty vector, `Reserve(c)` gives size 0 and capacity `c`; pushing `k <= c`
values then returns with the capacity exactly `c` and size `k`; pushing `c + 1` values in
all returns with the capacity at least `c + 1`; and in both cases the values pushed are the
elements, in order. -/
theorem C10_Reserve_then_push (raw : Nat → T) (c : Nat) (xs : List T) :
    (Reserve raw new c).size_ = 0 ∧ (Reserve raw new c).capacity_ = c ∧
    (xs.length ≤ c →
      ∃ w, pushAll raw (Reserve raw new c) xs = .ok w ∧
        w.capacity_ = c ∧ w.size_ = xs.length ∧ elems w = xs) ∧
    (xs.length = c + 1 →
      ∃ w, pushAll raw (Reserve raw new c) xs = .ok w ∧
        c + 1 ≤ w.capacity_ ∧ w.size_ = c + 1 ∧ elems w = xs) := by
  have h0 : WF (new : SimpleVector T) := ⟨Nat.le_refl _, rfl⟩
  have hw := Reserve_WF raw new c h0
  have hs : (Reserve raw (new : SimpleVector T) c).size_ = 0 := Reserve_size raw new c
  have hc : (Reserve raw (new : SimpleVector T) c).capacity_ = c := by
    rw [Reserve_capacity]
    exact Nat.max_eq_left (Nat.zero_le c)
  have he : elems (Reserve raw (new : SimpleVector T) c) = [] := by
    rw [Reserve_elems raw new c h0]
    rfl
  obtain ⟨pw, ps, pe⟩ := pushAll_spec raw xs _ hw
  rw [hs, Nat.zero_add] at ps
  rw [he, List.nil_append] at pe
  refine ⟨hs, hc, ?_, ?_⟩
  · intro hk
    exact ⟨_, pushAll_ok raw xs _,
      by rw [pushAll_capacity raw xs _ (by omega), hc], ps, pe⟩
  · intro hk
    exact ⟨_, pushAll_ok raw xs _, by have := pw.1; omega, by omega, pe⟩

theorem C10_Reserve_then_push_witness :
    (∃ w, pushAll rawCells (Reserve rawCells new 10) [1, 2, 3, 4, 5] = .ok w ∧
      w.capacity_ = 10 ∧ w.size_ = 5 ∧ elems w = [1, 2, 3, 4, 5]) ∧
    ((pushAll rawCells (Reserve rawCells new 10) [1, 2, 3, 4, 5]).bind
        (fun w => pushAll rawCells w [6, 7, 8, 9, 10, 11]) =
      pushAll rawCells (Reserve rawCells new 10) [1, 2, 3, 4, 5, 6, 7, 8, 9, 10, 11]) ∧
    (∃ w, pushAll rawCells (Reserve rawCells new 10) [1, 2, 3, 4, 5, 6, 7, 8, 9, 10, 11] =
        .ok w ∧
      10 + 1 ≤ w.capacity_ ∧ w.size_ = 10 + 1 ∧
      elems w = [1, 2, 3, 4, 5, 6, 7, 8, 9, 10, 11]) :=
  ⟨(C10_Reserve_then_push rawCells 10 [1, 2, 3, 4, 5]).2.2.1 (by decide),
   by decide,
   (C10_Reserve_then_push rawCells 10 [1, 2, 3, 4, 5, 6, 7, 8, 9, 10, 11]).2.2.2 rfl⟩

/-! ### Copy, move and the growth rules -/

theorem copy_ctor_elems (raw : Nat → T) (other : SimpleVector T) (h : WF other) :
    elems (copy_ctor raw other) = elems other := by
  obtain ⟨h1, h2⟩ := h
  unfold copy_ctor elems
  simp only
  rw [copy_front _ _ _ (by omega) (by rw [alloc_length])]
  exact List.take_left' (by rw [List.length_take]; omega)

/-- C11. Copy construction from `other`, and copy assignment from a distinct vector `other`,
give a vector of size `other.size`, of capacity `other.size` (whatever `other.capacity` is)
and with the elements of `other` in order; assignment of a vector to itself leaves it as it
was. In memory the copy holds a block of its own, no block that `other` holds: `other` is as
it was after the call, and stays so whatever is later written into the block of the copy,
also when that block is released. -/
theorem C11_copy (raw : Nat → T) (v other : SimpleVector T) (h : WF other)
    (mem : Heap T) (this_obj other_obj : SimpleVectorObj)
    (hother : ∀ a, other_obj.arr_ = some a → a < mem.length)
    (hthis : ∀ a, this_obj.arr_ = some a → a < mem.length ∧ other_obj.arr_ ≠ some a) :
    ((copy_ctor raw other).size_ = other.size_ ∧
      (copy_ctor raw other).capacity_ = other.size_ ∧
      elems (copy_ctor raw other) = elems other) ∧
    ((operator_assign raw v other false).size_ = other.size_ ∧
      (operator_assign raw v other false).capacity_ = other.size_ ∧
      elems (operator_assign raw v other false) = elems other) ∧
    operator_assign raw v v true = v ∧
    (SimpleVectorObj.view (copy_ctor_mem raw mem other_obj).1
        (copy_ctor_mem raw mem other_obj).2 =
        copy_ctor raw (SimpleVectorObj.view mem other_obj) ∧
      SimpleVectorObj.view (copy_ctor_mem raw mem other_obj).1 other_obj =
        SimpleVectorObj.view mem other_obj ∧
      (∀ a, (copy_ctor_mem raw mem other_obj).2.arr_ = some a → other_obj.arr_ ≠ some a) ∧
      (∀ cells : List T,
        SimpleVectorObj.view
          (Heap.store (copy_ctor_mem raw mem other_obj).1
            (copy_ctor_mem raw mem other_obj).2.arr_ cells) other_obj =
          SimpleVectorObj.view mem other_obj) ∧
      (∀ (i : Nat) (x : T),
        SimpleVectorObj.view
          (assign_index (copy_ctor_mem raw mem other_obj).1
            (copy_ctor_mem raw mem other_obj).2 i x) other_obj =
          SimpleVectorObj.view mem other_obj) ∧
      SimpleVectorObj.view
          (destroy (copy_ctor_mem raw mem other_obj).1 (copy_ctor_mem raw mem other_obj).2)
          other_obj =
        SimpleVectorObj.view mem other_obj) ∧
    (SimpleVectorObj.view (operator_assign_mem raw mem this_obj other_obj false).1
        (operator_assign_mem raw mem this_obj other_obj false).2 =
        operator_assign raw (SimpleVectorObj.view mem this_obj)
          (SimpleVectorObj.view mem other_obj) false ∧
      SimpleVectorObj.view (operator_assign_mem raw mem this_obj other_obj false).1
          other_obj =
        SimpleVectorObj.view mem other_obj ∧
      (∀ a, (operator_assign_mem raw mem this_obj other_obj false).2.arr_ = some a →
        other_obj.arr_ ≠ some a) ∧
      (∀ cells : List T,
        SimpleVectorObj.view
          (Heap.store (operator_assign_mem raw mem this_obj other_obj false).1
            (operator_assign_mem raw mem this_obj other_obj false).2.arr_ cells)
          other_obj =
          SimpleVectorObj.view mem other_obj)) ∧
    operator_assign_mem raw mem this_obj this_obj true = (mem, this_obj) := by
  obtain ⟨_, hold, hview⟩ := copy_ctor_mem_spec raw mem other_obj hother
  have hfresh := copy_ctor_mem_fresh raw mem other_obj other_obj hother hother
  have hfresh_this := copy_ctor_mem_fresh raw mem other_obj this_obj hother
    (fun a ha => (hthis a ha).1)
  have hsame := view_of_old mem (copy_ctor_mem raw mem other_obj).1 other_obj hother hold
  have hrel : SimpleVectorObj.view
      (Heap.release (copy_ctor_mem raw mem other_obj).1 this_obj.arr_) other_obj =
      SimpleVectorObj.view mem other_obj := by
    rw [view_release_other _ _ _ (fun a ha => (hthis a ha).2)]
    exact hsame
  refine ⟨⟨rfl, rfl, copy_ctor_elems raw other h⟩,
    ⟨rfl, rfl, copy_ctor_elems raw other h⟩,
    rfl, ⟨hview, hsame, hfresh, ?_, ?_, ?_⟩, ⟨?_, hrel, hfresh, ?_⟩, rfl⟩
  · intro cells
    rw [view_store_other _ _ _ _ hfresh]
    exact hsame
  · intro i x
    unfold assign_index
    rw [view_store_other _ _ _ _ hfresh]
    exact hsame
  · unfold destroy
    rw [view_release_other _ _ _ hfresh]
    exact hsame
  · show SimpleVectorObj.view
      (Heap.release (copy_ctor_mem raw mem other_obj).1 this_obj.arr_)
      (copy_ctor_mem raw mem other_obj).2 = copy_ctor raw (SimpleVectorObj.view mem other_obj)
    rw [view_release_other _ _ _ (fun a ha c => hfresh_this a c ha)]
    exact hview
  · intro cells
    show SimpleVectorObj.view
      (Heap.store (Heap.release (copy_ctor_mem raw mem other_obj).1 this_obj.arr_)
        (copy_ctor_mem raw mem other_obj).2.arr_ cells) other_obj = _
    rw [view_store_other _ _ _ _ hfresh]
    exact hrel

theorem C11_copy_witness :
    WF (Reserve rawCells (ofInit rawCells [1, 2, 3]) 10) ∧
    (Reserve rawCells (ofInit rawCells [1, 2, 3]) 10).capacity_ = 10 ∧
    (copy_ctor rawCells (Reserve rawCells (ofInit rawCells [1, 2, 3]) 10)).capacity_ = 3 ∧
    elems (copy_ctor rawCells (Reserve rawCells (ofInit rawCells [1, 2, 3]) 10)) =
      elems (Reserve rawCells (ofInit rawCells [1, 2, 3]) 10) ∧
    copy_ctor_mem rawCells [some [7, 8], some [1, 2, 3, 0, 0]]
        { size_ := 3, capacity_ := 5, arr_ := some 1 } =
      ([some [7, 8], some [1, 2, 3, 0, 0], some [1, 2, 3]],
        { size_ := 3, capacity_ := 3, arr_ := some 2 }) ∧
    assign_index [some [7, 8], some [1, 2, 3, 0, 0], some [1, 2, 3]]
        { size_ := 3, capacity_ := 3, arr_ := some 2 } 0 9 =
      [some [7, 8], some [1, 2, 3, 0, 0], some [9, 2, 3]] ∧
    (∀ (i x : Nat),
      SimpleVectorObj.view
        (assign_index
          (copy_ctor_mem rawCells [some [7, 8], some [1, 2, 3, 0, 0]]
            { size_ := 3, capacity_ := 5, arr_ := some 1 }).1
          (copy_ctor_mem rawCells [some [7, 8], some [1, 2, 3, 0, 0]]
            { size_ := 3, capacity_ := 5, arr_ := some 1 }).2 i x)
        { size_ := 3, capacity_ := 5, arr_ := some 1 } =
      SimpleVectorObj.view [some [7, 8], some [1, 2, 3, 0, 0]]
        { size_ := 3, capacity_ := 5, arr_ := some 1 }) :=
  ⟨by decide, by decide,
    (C11_copy rawCells new (Reserve rawCells (ofInit rawCells [1, 2, 3]) 10) (by decide)
      [some [7, 8], some [1, 2, 3, 0, 0]] { size_ := 2, capacity_ := 2, arr_ := some 0 }
      { size_ := 3, capacity_ := 5, arr_ := some 1 } (by decide) (by decide)).1.2.1,
    (C11_copy rawCells new (Reserve rawCells (ofInit rawCells [1, 2, 3]) 10) (by decide)
      [some [7, 8], some [1, 2, 3, 0, 0]] { size_ := 2, capacity_ := 2, arr_ := some 0 }
      { size_ := 3, capacity_ := 5, arr_ := some 1 } (by decide) (by decide)).1.2.2,
    by decide, by decide,
    (C11_copy rawCells new (Reserve rawCells (ofInit rawCells [1, 2, 3]) 10) (by decide)
      [some [7, 8], some [1, 2, 3, 0, 0]] { size_ := 2, capacity_ := 2, arr_ := some 0 }
      { size_ := 3, capacity_ := 5, arr_ := some 1 } (by decide)
      (by decide)).2.2.2.1.2.2.2.2.1⟩

/-- C12. Move construction from a vector `src` with elements `xs` gives a vector of size
`length xs` with the elements `xs` in order, and leaves `src` with size 0. -/
theorem C12_move (raw : Nat → T) (src : SimpleVector T) (h : WF src) :
    (move_ctor raw src).1.size_ = (elems src).length ∧
    elems (move_ctor raw src).1 = elems src ∧
    (move_ctor raw src).2.size_ = 0 :=
  ⟨(elems_length src h).symm, copy_ctor_elems raw src h, rfl⟩

theorem C12_move_witness :
    WF (ofInit rawCells [4, 5, 6]) ∧
    (move_ctor rawCells (ofInit rawCells [4, 5, 6])).1.size_ = 3 ∧
    elems (move_ctor rawCells (ofInit rawCells [4, 5, 6])).1 = [4, 5, 6] ∧
    (move_ctor rawCells (ofInit rawCells [4, 5, 6])).2.size_ = 0 :=
  ⟨by decide, (C12_move rawCells (ofInit rawCells [4, 5, 6]) (by decide)).1,
    (C12_move rawCells (ofInit rawCells [4, 5, 6]) (by decide)).2.1,
    (C12_move rawCells (ofInit rawCells [4, 5, 6]) (by decide)).2.2⟩

theorem Resize_releases_full_push (v : SimpleVector T) (hfull : v.size_ = v.capacity_) :
    Resize_releases v (v.capacity_ + 1) = true := by
  unfold Resize_releases
  rw [if_neg (by omega), if_neg (by omega)]

theorem Resize_releases_full_insert (v : SimpleVector T) (hfull : v.size_ = v.capacity_) :
    Resize_releases v (if v.capacity_ = 0 then 1 else v.capacity_ * 2) = true := by
  unfold Resize_releases
  rw [if_neg (by split_ifs <;> omega), if_neg (by split_ifs <;> omega)]

/-- At `end()` the shift of `Insert` moves no cell, so `Insert` and `PushBack` read their
argument alike: both through a dangling reference, or both the same value. -/
theorem Insert_end_read (raw : Nat → T) (v : SimpleVector T) (r : Ref T) :
    (Insert raw v v.size_ r = .error Failure.dangling ∧
      PushBack raw v r = .error Failure.dangling) ∨
    (∃ x, Insert raw v v.size_ r = Insert raw v v.size_ (Ref.outside x) ∧
      PushBack raw v r = PushBack raw v (Ref.outside x)) := by
  cases r with
  | outside x => exact Or.inr ⟨x, rfl, rfl⟩
  | cell j =>
    by_cases hfull : v.size_ = v.capacity_
    · refine Or.inl ⟨?_, ?_⟩
      · unfold Insert Ref.read
        rw [if_pos (Nat.le_refl _)]
        simp only [if_pos hfull, Resize_releases_full_insert v hfull, if_true]
      · unfold PushBack Ref.read
        simp only [if_pos hfull, Resize_releases_full_push v hfull, if_true]
    · refine Or.inr ⟨v.arr_.getD j default, ?_, ?_⟩
      · unfold Insert Ref.read
        rw [if_pos (Nat.le_refl _)]
        simp only [if_neg hfull, Bool.false_eq_true, if_false, std_copy_backward,
          Nat.add_sub_cancel, Nat.sub_self, copy_backward_loop, Nat.le_refl, if_true]
      · unfold PushBack Ref.read
        simp only [if_neg hfull, Bool.false_eq_true, if_false]

/-- C15. `Insert(end(), v)` does what `PushBack(v)` does: it returns, and leaves the same
size, the same elements in the same order and the same capacity. That holds for a value
held by an object outside the vector; and for every argument the two calls either both read
a dangling reference or both return with these three the same. -/
theorem C15_Insert_end_is_PushBack (raw : Nat → T) (v : SimpleVector T) (x : T) (h : WF v) :
    (∃ w it u, Insert raw v (end_ v) (Ref.outside x) = .ok (w, it) ∧
      PushBack raw v (Ref.outside x) = .ok u ∧
      w.size_ = u.size_ ∧ elems w = elems u ∧ w.capacity_ = u.capacity_) ∧
    (∀ r : Ref T,
      (Insert raw v (end_ v) r = .error Failure.dangling ∧
        PushBack raw v r = .error Failure.dangling) ∨
      (∃ w it u, Insert raw v (end_ v) r = .ok (w, it) ∧ PushBack raw v r = .ok u ∧
        w.size_ = u.size_ ∧ elems w = elems u ∧ w.capacity_ = u.capacity_)) := by
  have key : ∀ y : T, ∃ w it u, Insert raw v (end_ v) (Ref.outside y) = .ok (w, it) ∧
      PushBack raw v (Ref.outside y) = .ok u ∧
      w.size_ = u.size_ ∧ elems w = elems u ∧ w.capacity_ = u.capacity_ := by
    intro y
    obtain ⟨w, hw, hs, hc⟩ := Insert_ok raw v v.size_ y (Nat.le_refl _)
    obtain ⟨_, _, _, _, he⟩ := Insert_spec raw v w v.size_ v.size_ y h hw
    have hl := elems_length v h
    refine ⟨w, v.size_, _, hw, PushBack_outside raw v y, ?_, ?_, ?_⟩
    · rw [hs, PushBack_size]
    · rw [he, PushBack_elems raw v y h, List.take_of_length_le (by omega),
        List.drop_of_length_le (by omega)]
    · rw [hc, PushBack_capacity]
      split_ifs with c1 c2
      · rw [c2]; rfl
      · exact (Nat.max_eq_right (by omega)).symm
      · rfl
  refine ⟨key x, ?_⟩
  intro r
  rcases Insert_end_read raw v r with hd | ⟨y, h1, h2⟩
  · exact Or.inl hd
  · refine Or.inr ?_
    show ∃ w it u, Insert raw v v.size_ r = .ok (w, it) ∧ PushBack raw v r = .ok u ∧ _
    rw [h1, h2]
    exact key y

theorem C15_Insert_end_is_PushBack_witness :
    WF (ofInit rawCells [1, 2]) ∧
    Insert rawCells (ofInit rawCells [1, 2]) 2 (Ref.outside 9) =
      (PushBack rawCells (ofInit rawCells [1, 2]) (Ref.outside 9)).map (fun u => (u, 2)) ∧
    ∃ w it u,
      Insert rawCells (ofInit rawCells [1, 2]) (end_ (ofInit rawCells [1, 2]))
        (Ref.outside 9) = .ok (w, it) ∧
      PushBack rawCells (ofInit rawCells [1, 2]) (Ref.outside 9) = .ok u ∧
      w.size_ = u.size_ ∧ elems w = elems u ∧ w.capacity_ = u.capacity_ :=
  ⟨by decide, by decide,
    (C15_Insert_end_is_PushBack rawCells (ofInit rawCells [1, 2]) 9 (by decide)).1⟩

/-- C16, as first stated, fails: on the vector `[7, 7]` (size 2, capacity 2), `Resize(2)` has
`new_size >= capacity` and leaves the capacity 2, not `max(2, 2 * 2)`. -/
theorem C16_counterexample :
    (ofSizeValue rawCells 2 7).capacity_ ≤ 2 ∧
    (Resize rawCells (ofSizeValue rawCells 2 7) 2).capacity_ = 2 ∧
    (Resize rawCells (ofSizeValue rawCells 2 7) 2).capacity_ ≠
      max 2 ((ofSizeValue rawCells 2 7).capacity_ * 2) := by
  decide

/-- C16, amended. `Resize(new_size)` with `new_size >= capacity` sets the size to `new_size`;
it sets the capacity to `max(new_size, capacity * 2)` when `new_size > size`, and leaves the
capacity as it was when `new_size <= size`, which on a vector with `size <= capacity` is the
case `new_size == size == capacity`. -/
theorem C16_Resize_capacity (raw : Nat → T) (v : SimpleVector T) (n : Nat)
    (hn : v.capacity_ ≤ n) :
    (Resize raw v n).size_ = n ∧
    (v.size_ < n → (Resize raw v n).capacity_ = max n (v.capacity_ * 2)) ∧
    (n ≤ v.size_ → (Resize raw v n).capacity_ = v.capacity_) ∧
    (n ≤ v.size_ → v.size_ ≤ v.capacity_ → n = v.size_ ∧ v.size_ = v.capacity_) := by
  refine ⟨Resize_size raw v n, ?_, ?_, ?_⟩
  · intro h
    rw [Resize_capacity, if_neg (by omega)]
  · intro h
    rw [Resize_capacity, if_pos (Or.inl h)]
  · intro h1 h2
    omega

theorem C16_Resize_capacity_witness :
    (ofSizeValue rawCells 2 7).capacity_ ≤ 5 ∧
    (Resize rawCells (ofSizeValue rawCells 2 7) 5).size_ = 5 ∧
    (Resize rawCells (ofSizeValue rawCells 2 7) 5).capacity_ = max 5 (2 * 2) :=
  ⟨by decide,
    (C16_Resize_capacity rawCells (ofSizeValue rawCells 2 7) 5 (by decide)).1,
    (C16_Resize_capacity rawCells (ofSizeValue rawCells 2 7) 5 (by decide)).2.1 (by decide)⟩

/-- C17, as first stated, fails: the vector `[1, 2, 3]` after `Reserve(10)` has capacity 10,
and the vector move-constructed from it has capacity 3. -/
theorem C17_counterexample :
    (Reserve rawCells (ofInit rawCells [1, 2, 3]) 10).capacity_ = 10 ∧
    (move_ctor rawCells (Reserve rawCells (ofInit rawCells [1, 2, 3]) 10)).1.capacity_ = 3 ∧
    (move_ctor rawCells (Reserve rawCells (ofInit rawCells [1, 2, 3]) 10)).1.capacity_ ≠
      (Reserve rawCells (ofInit rawCells [1, 2, 3]) 10).capacity_ := by
  decide

/-- C17, amended. The vector move-constructed from `src` has the size `src` had, and a capacity
equal to that size; so it has the capacity `src` had exactly when `src` had
`size == capacity`. `src` keeps its capacity. -/
theorem C17_move_size_capacity (raw : Nat → T) (src : SimpleVector T) :
    (move_ctor raw src).1.size_ = src.size_ ∧
    (move_ctor raw src).1.capacity_ = src.size_ ∧
    ((move_ctor raw src).1.capacity_ = src.capacity_ ↔ src.size_ = src.capacity_) ∧
    (move_ctor raw src).2.capacity_ = src.capacity_ :=
  ⟨rfl, rfl, Iff.rfl, rfl⟩

/-- C18. `Insert` at a position `p` in `[0, size]` returns; when `size == capacity` before the
call it makes the capacity `max(1, capacity * 2)`, twice what it was, or 1 when it was 0;
when `size < capacity` it leaves the capacity as it was. That holds for a value held by an
object outside the vector, and the capacity is the same after every call that returns. -/
theorem C18_Insert_capacity (raw : Nat → T) (v : SimpleVector T) (p : Nat) (x : T)
    (hp : p ≤ v.size_) :
    (∃ w, Insert raw v p (Ref.outside x) = .ok (w, p) ∧
      (v.size_ = v.capacity_ → w.capacity_ = max 1 (v.capacity_ * 2) ∧
        (v.capacity_ = 0 → w.capacity_ = 1) ∧
        (v.capacity_ ≠ 0 → w.capacity_ = v.capacity_ * 2)) ∧
      (v.size_ < v.capacity_ → w.capacity_ = v.capacity_)) ∧
    (∀ (r : Ref T) (w : SimpleVector T) (it : Nat), Insert raw v p r = .ok (w, it) →
      (v.size_ = v.capacity_ → w.capacity_ = max 1 (v.capacity_ * 2)) ∧
      (v.size_ < v.capacity_ → w.capacity_ = v.capacity_)) := by
  have key : ∀ y : T, ∃ w, Insert raw v p (Ref.outside y) = .ok (w, p) ∧
      (v.size_ = v.capacity_ → w.capacity_ = max 1 (v.capacity_ * 2) ∧
        (v.capacity_ = 0 → w.capacity_ = 1) ∧
        (v.capacity_ ≠ 0 → w.capacity_ = v.capacity_ * 2)) ∧
      (v.size_ < v.capacity_ → w.capacity_ = v.capacity_) := by
    intro y
    obtain ⟨w, hw, _, hc⟩ := Insert_ok raw v p y hp
    refine ⟨w, hw, ?_, ?_⟩
    · intro hfull
      rw [if_pos hfull] at hc
      refine ⟨?_, ?_, ?_⟩
      · rw [hc]
        split_ifs with c
        · rw [c]; rfl
        · exact (Nat.max_eq_right (by omega)).symm
      · intro c
        rw [hc, if_pos c]
      · intro c
        rw [hc, if_neg c]
    · intro hlt
      rw [if_neg (by omega)] at hc
      exact hc
  refine ⟨key x, ?_⟩
  intro r w it hr
  obtain ⟨y, hy⟩ := Insert_ok_outside raw v w p it r hr
  obtain ⟨w', hw', h1, h2⟩ := key y
  rw [hy] at hw'
  have e : w = w' := (Prod.mk.inj (Except.ok.inj hw')).1
  rw [e]
  exact ⟨fun hfull => (h1 hfull).1, h2⟩

theorem C18_Insert_capacity_witness :
    1 ≤ (ofInit rawCells [1, 2, 3]).size_ ∧
    ∃ w, Insert rawCells (ofInit rawCells [1, 2, 3]) 1 (Ref.outside 9) = .ok (w, 1) ∧
      (3 = 3 → w.capacity_ = max 1 (3 * 2) ∧
        (3 = 0 → w.capacity_ = 1) ∧ (3 ≠ 0 → w.capacity_ = 3 * 2)) ∧
      (3 < 3 → w.capacity_ = 3) :=
  ⟨by decide,
    (C18_Insert_capacity rawCells (ofInit rawCells [1, 2, 3]) 1 9 (by decide)).1⟩

/-! ### Equality -/

theorem equal_loop_iff [BEq T] (n : Nat) (b1 : List T) (f1 : Nat) (b2 : List T) (f2 : Nat) :
    equal_loop n b1 f1 b2 f2 = true ↔
      ∀ i, i < n → (b1.getD (f1 + i) default == b2.getD (f2 + i) default) = true := by
  induction n generalizing f1 f2 with
  | zero => exact ⟨fun _ i hi => absurd hi (Nat.not_lt_zero i), fun _ => rfl⟩
  | succ n ih =>
    unfold equal_loop
    by_cases c : (b1.getD f1 default == b2.getD f2 default) = true
    · rw [c]
      simp only [Bool.not_true, Bool.false_eq_true, if_false]
      rw [ih]
      constructor
      · intro hall i hi
        cases i with
        | zero => exact c
        | succ j =>
          have := hall j (by omega)
          rw [Nat.add_assoc, Nat.add_comm 1 j, Nat.add_assoc f2, Nat.add_comm 1 j] at this
          exact this
      · intro hall i hi
        have := hall (i + 1) (by omega)
        rw [Nat.add_assoc, Nat.add_comm 1 i, Nat.add_assoc f2, Nat.add_comm 1 i]
        exact this
    · have c' : (b1.getD f1 default == b2.getD f2 default) = false := by
        cases hb : (b1.getD f1 default == b2.getD f2 default)
        · rfl
        · exact absurd hb c
      rw [c']
      simp only [Bool.not_false, if_true, Bool.false_eq_true, false_iff]
      intro hall
      exact c (hall 0 (by omega))

theorem operator_eq_iff [BEq T] (a b : SimpleVector T) :
    operator_eq a b = true ↔
      a.size_ = b.size_ ∧
      ∀ i, i < a.size_ → (a.arr_.getD i default == b.arr_.getD i default) = true := by
  unfold operator_eq std_equal GetSize begin_ end_
  by_cases c : a.size_ = b.size_
  · rw [if_neg (by simpa using c), equal_loop_iff]
    simp only [Nat.sub_zero, Nat.zero_add, c, true_and]
  · rw [if_pos c]
    simp only [Bool.false_eq_true, c, false_and]

theorem cell_eq_elems (v : SimpleVector T) (i : Nat) (h : i < v.size_) :
    v.arr_.getD i default = (elems v).getD i default := by
  simp only [elems, List.getD_eq_getElem?_getD, List.getElem?_take, if_pos h]

/-- C13. `a == b` is true exactly when `a.size == b.size` and `a[i] == b[i]` for every
`i < size`; so vectors of different sizes are never equal, and the result depends neither
on a capacity nor on a cell at an index `>= size`: vectors with the same sizes and the same
elements give the same result. `a != b` is the negation of `a == b`. -/
theorem C13_operator_eq [BEq T] (a b : SimpleVector T) :
    (operator_eq a b = true ↔
      a.size_ = b.size_ ∧
      ∀ i, i < a.size_ → ∃ x y, operator_index a i = .ok (x, a) ∧
        operator_index b i = .ok (y, b) ∧ (x == y) = true) ∧
    (a.size_ ≠ b.size_ → operator_eq a b = false) ∧
    (∀ a' b' : SimpleVector T, a'.size_ = a.size_ → elems a' = elems a →
      b'.size_ = b.size_ → elems b' = elems b → operator_eq a' b' = operator_eq a b) ∧
    operator_ne a b = !operator_eq a b := by
  refine ⟨?_, ?_, ?_, rfl⟩
  · rw [operator_eq_iff]
    constructor
    · rintro ⟨hs, hall⟩
      refine ⟨hs, fun i hi => ⟨_, _, ?_, ?_, hall i hi⟩⟩
      · unfold operator_index; rw [if_pos hi]
      · unfold operator_index; rw [if_pos (by omega)]
    · rintro ⟨hs, hall⟩
      refine ⟨hs, fun i hi => ?_⟩
      obtain ⟨x, y, hx, hy, hxy⟩ := hall i hi
      unfold operator_index at hx hy
      rw [if_pos hi] at hx
      rw [if_pos (by omega)] at hy
      simp only [Except.ok.injEq, Prod.mk.injEq, and_true] at hx hy
      rw [hx, hy]
      exact hxy
  · intro hne
    cases hb : operator_eq a b
    · rfl
    · exact absurd ((operator_eq_iff a b).mp hb).1 hne
  · intro a' b' hsa hea hsb heb
    rw [Bool.eq_iff_iff, operator_eq_iff, operator_eq_iff, hsa, hsb]
    constructor
    · rintro ⟨hs, hall⟩
      refine ⟨hs, fun i hi => ?_⟩
      have := hall i hi
      rw [cell_eq_elems a' i (by omega), cell_eq_elems b' i (by omega), hea, heb,
        ← cell_eq_elems a i hi, ← cell_eq_elems b i (by omega)] at this
      exact this
    · rintro ⟨hs, hall⟩
      refine ⟨hs, fun i hi => ?_⟩
      have := hall i hi
      rw [cell_eq_elems a' i (by omega), cell_eq_elems b' i (by omega), hea, heb,
        ← cell_eq_elems a i hi, ← cell_eq_elems b i (by omega)]
      exact this

theorem C13_operator_eq_witness :
    operator_eq (ofInit rawCells [1, 3]) (Reserve rawCells (ofInit rawCells [1, 3]) 7) = true ∧
    operator_eq (ofInit rawCells [1, 3]) (ofInit rawCells [1, 3, 4]) = false ∧
    operator_ne (ofInit rawCells [1, 3]) (ofInit rawCells [1, 4]) = true :=
  ⟨by decide,
    (C13_operator_eq (ofInit rawCells [1, 3]) (ofInit rawCells [1, 3, 4])).2.1 (by decide),
    by decide⟩

/-! ### Ordering -/

theorem lexicographical_loop_eq [LT T] [DecidableRel (fun (x y : T) => x < y)]
    (xs ys pre1 post1 pre2 post2 : List T) :
    lexicographical_loop xs.length ys.length (pre1 ++ xs ++ post1) pre1.length
      (pre2 ++ ys ++ post2) pre2.length = lex_less xs ys := by
  induction xs generalizing ys pre1 pre2 with
  | nil =>
    cases ys with
    | nil => rfl
    | cons y ys => rfl
  | cons x xs ih =>
    cases ys with
    | nil => rfl
    | cons y ys =>
      have e1 : (pre1 ++ x :: xs ++ post1).getD pre1.length default = x := by
        rw [List.getD_eq_getElem?_getD, List.append_assoc,
          List.getElem?_append_right (Nat.le_refl _), Nat.sub_self, List.cons_append,
          List.getElem?_cons_zero]
        rfl
      have e2 : (pre2 ++ y :: ys ++ post2).getD pre2.length default = y := by
        rw [List.getD_eq_getElem?_getD, List.append_assoc,
          List.getElem?_append_right (Nat.le_refl _), Nat.sub_self, List.cons_append,
          List.getElem?_cons_zero]
        rfl
      have h := ih ys (pre1 ++ [x]) (pre2 ++ [y])
      simp only [List.length_append, List.length_singleton, List.append_assoc,
        List.singleton_append] at h
      simp only [List.length_cons, lexicographical_loop, lex_less, e1, e2]
      simp only [List.append_assoc, List.cons_append] at h ⊢
      rw [h]

theorem arr_split (v : SimpleVector T) :
    v.arr_ = [] ++ elems v ++ v.arr_.drop v.size_ := by
  simp only [elems, List.nil_append, List.take_append_drop]

theorem operator_lt_elems [LT T] [DecidableRel (fun (x y : T) => x < y)]
    (a b : SimpleVector T) (ha : WF a) (hb : WF b) :
    operator_lt a b = lex_less (elems a) (elems b) := by
  have h := lexicographical_loop_eq (elems a) (elems b) [] (a.arr_.drop a.size_) []
    (b.arr_.drop b.size_)
  rw [← arr_split a, ← arr_split b, elems_length a ha, elems_length b hb] at h
  exact h

theorem operator_eq_elems [BEq T] [LawfulBEq T] (a b : SimpleVector T) (ha : WF a)
    (hb : WF b) : operator_eq a b = true ↔ elems a = elems b := by
  rw [operator_eq_iff]
  constructor
  · rintro ⟨hs, hall⟩
    apply List.ext_getElem?
    intro i
    simp only [elems, List.getElem?_take, ← hs]
    split_ifs with c
    · have := eq_of_beq (hall i c)
      rw [← some_getD _ _ (by have := ha.1; have := ha.2; omega),
        ← some_getD _ _ (by have := hb.1; have := hb.2; omega), this]
    · rfl
  · intro he
    have hs : a.size_ = b.size_ := by
      rw [← elems_length a ha, ← elems_length b hb, he]
    refine ⟨hs, fun i hi => ?_⟩
    rw [cell_eq_elems a i hi, cell_eq_elems b i (by omega), he]
    exact beq_self_eq_true _

theorem LexLess_nil_left [LT T] (ys : List T) : LexLess [] ys ↔ ys ≠ [] := by
  constructor
  · rintro ⟨pre, ⟨y, t, h1, h2⟩ | ⟨x, y, s, t, h1, h2, h3⟩⟩
    · rw [h2]; simp
    · rw [h2]; simp
  · intro h
    cases ys with
    | nil => exact absurd rfl h
    | cons y t => exact ⟨[], Or.inl ⟨y, t, rfl, rfl⟩⟩

theorem LexLess_nil_right [LT T] (xs : List T) : ¬ LexLess xs [] := by
  rintro ⟨pre, ⟨y, t, h1, h2⟩ | ⟨x, y, s, t, h1, h2, h3⟩⟩
  · simp at h2
  · simp at h2

theorem LexLess_cons [LT T] (x y : T) (xs ys : List T) :
    LexLess (x :: xs) (y :: ys) ↔ x < y ∨ (x = y ∧ LexLess xs ys) := by
  constructor
  · rintro ⟨pre, ⟨y', t, h1, h2⟩ | ⟨x', y', s, t, h1, h2, h3⟩⟩
    · cases pre with
      | nil => simp at h1
      | cons z pre =>
        simp only [List.cons_append, List.cons.injEq] at h1 h2
        exact Or.inr ⟨h1.1.trans h2.1.symm, pre, Or.inl ⟨y', t, h1.2, h2.2⟩⟩
    · cases pre with
      | nil =>
        simp only [List.nil_append, List.cons.injEq] at h1 h2
        rw [h1.1, h2.1]
        exact Or.inl h3
      | cons z pre =>
        simp only [List.cons_append, List.cons.injEq] at h1 h2
        exact Or.inr ⟨h1.1.trans h2.1.symm, pre, Or.inr ⟨x', y', s, t, h1.2, h2.2, h3⟩⟩
  · rintro (h | ⟨h, pre, ⟨y', t, h1, h2⟩ | ⟨x', y', s, t, h1, h2, h3⟩⟩)
    · exact ⟨[], Or.inr ⟨x, y, xs, ys, rfl, rfl, h⟩⟩
    · exact ⟨x :: pre, Or.inl ⟨y', t, by rw [h1], by rw [h2, h]; rfl⟩⟩
    · exact ⟨x :: pre, Or.inr ⟨x', y', s, t, by rw [h1]; rfl, by rw [h2, h]; rfl, h3⟩⟩

theorem lex_less_iff [LinearOrder T] (xs ys : List T) :
    lex_less xs ys = true ↔ LexLess xs ys := by
  induction xs generalizing ys with
  | nil =>
    cases ys with
    | nil => simp [lex_less, LexLess_nil_right]
    | cons y ys => simp [lex_less, LexLess_nil_left]
  | cons x xs ih =>
    cases ys with
    | nil => simp [lex_less, LexLess_nil_right]
    | cons y ys =>
      rw [LexLess_cons, ← ih]
      rcases lt_trichotomy x y with h | h | h
      · simp [lex_less, h]
      · subst h
        simp [lex_less]
      · simp [lex_less, h, not_lt_of_gt h, ne_of_gt h]

theorem lex_less_trichotomy [LinearOrder T] (xs ys : List T) :
    (lex_less xs ys = true ∧ xs ≠ ys ∧ lex_less ys xs = false) ∨
    (lex_less xs ys = false ∧ xs = ys ∧ lex_less ys xs = false) ∨
    (lex_less xs ys = false ∧ xs ≠ ys ∧ lex_less ys xs = true) := by
  induction xs generalizing ys with
  | nil => cases ys <;> simp [lex_less]
  | cons x xs ih =>
    cases ys with
    | nil => simp [lex_less]
    | cons y ys =>
      rcases lt_trichotomy x y with h | h | h
      · simp [lex_less, h, not_lt_of_gt h, ne_of_lt h]
      · subst h
        simpa [lex_less] using ih ys
      · simp [lex_less, h, not_lt_of_gt h, ne_of_gt h]

theorem operator_eq_decide [BEq T] [LawfulBEq T] [DecidableEq T] (a b : SimpleVector T)
    (ha : WF a) (hb : WF b) : operator_eq a b = decide (elems a = elems b) := by
  rw [Bool.eq_iff_iff, operator_eq_elems a b ha hb, decide_eq_true_iff]

/-- C14. `a < b` is the lexicographic comparison of the element sequences of `a` and `b`
under the order of the element type: a proper prefix is less than the longer sequence, so
the empty vector is less than every non-empty one, and otherwise the first differing
element decides. `a > b` is `b < a`. -/
theorem C14_operator_lt [LinearOrder T] (a b : SimpleVector T) (ha : WF a) (hb : WF b) :
    (operator_lt a b = true ↔ LexLess (elems a) (elems b)) ∧
    ((∃ y t, elems b = elems a ++ y :: t) → operator_lt a b = true) ∧
    (a.size_ = 0 → b.size_ ≠ 0 → operator_lt a b = true) ∧
    (∀ pre x y s t, elems a = pre ++ x :: s → elems b = pre ++ y :: t → x ≠ y →
      (operator_lt a b = true ↔ x < y)) ∧
    operator_gt a b = operator_lt b a := by
  have hiff : operator_lt a b = true ↔ LexLess (elems a) (elems b) := by
    rw [operator_lt_elems a b ha hb, lex_less_iff]
  refine ⟨hiff, ?_, ?_, ?_, rfl⟩
  · rintro ⟨y, t, h⟩
    exact hiff.mpr ⟨elems a, Or.inl ⟨y, t, rfl, h⟩⟩
  · intro h0 hne
    have ea : elems a = [] := List.eq_nil_of_length_eq_zero (by rw [elems_length a ha, h0])
    have eb : elems b ≠ [] := by
      intro c
      have := elems_length b hb
      rw [c] at this
      exact hne this.symm
    rw [hiff, ea]
    exact (LexLess_nil_left _).mpr eb
  · intro pre x y s t h1 h2 hxy
    rw [hiff, h1, h2]
    clear h1 h2 hiff
    induction pre with
    | nil =>
      rw [List.nil_append, List.nil_append, LexLess_cons]
      exact ⟨fun h => h.elim id (fun c => absurd c.1 hxy), Or.inl⟩
    | cons z pre ih =>
      rw [List.cons_append, List.cons_append, LexLess_cons]
      exact ⟨fun h => h.elim (fun c => absurd c (lt_irrefl z)) (fun c => ih.mp c.2),
        fun h => Or.inr ⟨rfl, ih.mpr h⟩⟩

theorem C14_operator_lt_witness :
    WF (ofInit rawCells [1, 2]) ∧ WF (ofInit rawCells [1, 2, 3]) ∧
    operator_lt (ofInit rawCells [1, 2]) (ofInit rawCells [1, 2, 3]) = true ∧
    operator_lt (ofInit rawCells [1, 2, 3]) (ofInit rawCells [1, 3]) = true ∧
    operator_lt (new : SimpleVector Nat) (ofInit rawCells [1]) = true ∧
    operator_lt (ofInit rawCells [1, 3]) (ofInit rawCells [1, 2, 3]) = false :=
  ⟨by decide, by decide,
    (C14_operator_lt (ofInit rawCells [1, 2]) (ofInit rawCells [1, 2, 3]) (by decide)
      (by decide)).2.1 ⟨3, [], rfl⟩,
    by decide, by decide, by decide⟩

/-- C20. Over a totally ordered element type the derived operators agree with one another:
`a >= b`, computed as `!(a < b)`, holds exactly when `b <= a`, computed as
`b == a || b < a`; `a <= b` holds exactly when `a > b` does not; and exactly one of `a < b`,
`a == b`, `a > b` holds. -/
theorem C20_operators_consistent [LinearOrder T] (a b : SimpleVector T) (ha : WF a)
    (hb : WF b) :
    (operator_ge a b = true ↔ operator_le b a = true) ∧
    (operator_le a b = true ↔ ¬ operator_gt a b = true) ∧
    ((operator_lt a b = true ∧ operator_eq a b = false ∧ operator_gt a b = false) ∨
     (operator_lt a b = false ∧ operator_eq a b = true ∧ operator_gt a b = false) ∨
     (operator_lt a b = false ∧ operator_eq a b = false ∧ operator_gt a b = true)) := by
  unfold operator_ge operator_le operator_gt
  rw [operator_lt_elems a b ha hb, operator_lt_elems b a hb ha,
    operator_eq_decide a b ha hb, operator_eq_decide b a hb ha]
  rcases lex_less_trichotomy (elems a) (elems b) with ⟨h1, h2, h3⟩ | ⟨h1, h2, h3⟩ | ⟨h1, h2, h3⟩
  · simp [h1, h2, h3, Ne.symm h2]
  · rw [h2] at h1
    simp [h1, h2]
  · simp [h1, h2, h3, Ne.symm h2]

theorem C20_operators_consistent_witness :
    WF (ofInit rawCells [1, 2, 3]) ∧ WF (ofInit rawCells [1, 3]) ∧
    (operator_ge (ofInit rawCells [1, 2, 3]) (ofInit rawCells [1, 3]) = true ↔
      operator_le (ofInit rawCells [1, 3]) (ofInit rawCells [1, 2, 3]) = true) ∧
    operator_lt (ofInit rawCells [1, 2, 3]) (ofInit rawCells [1, 3]) = true ∧
    operator_ge (ofInit rawCells [1, 2, 3]) (ofInit rawCells [1, 3]) = false :=
  ⟨by decide, by decide,
    (C20_operators_consistent (ofInit rawCells [1, 2, 3]) (ofInit rawCells [1, 3])
      (by decide) (by decide)).1,
    by decide, by decide⟩

/-! ### Growth under repeated `PushBack` -/

theorem pushAll_append (raw : Nat → T) (v : SimpleVector T) (xs : List T) (x : T) :
    pushAll_result raw v (xs ++ [x]) = PushBack_result raw (pushAll_result raw v xs) x := by
  unfold pushAll_result
  rw [List.foldl_append]
  rfl

theorem pushAll_size (raw : Nat → T) (xs : List T) (v : SimpleVector T) :
    (pushAll_result raw v xs).size_ = v.size_ + xs.length := by
  induction xs generalizing v with
  | nil => rfl
  | cons x xs ih =>
    show (pushAll_result raw (PushBack_result raw v x) xs).size_ = _
    rw [ih, PushBack_size, List.length_cons]
    omega

theorem reallocations_append (raw : Nat → T) (xs : List T) (v : SimpleVector T) (x : T) :
    reallocations raw v (xs ++ [x]) =
      reallocations raw v xs +
        (if (pushAll_result raw v xs).size_ = (pushAll_result raw v xs).capacity_ then 1
          else 0) := by
  induction xs generalizing v with
  | nil =>
    simp only [List.nil_append, reallocations, pushAll_result, List.foldl_nil,
      PushBack_outside]
    omega
  | cons y xs ih =>
    show (if v.size_ = v.capacity_ then 1 else 0) +
      reallocations raw (PushBack_result raw v y) (xs ++ [x]) = _
    rw [ih]
    show _ = (if v.size_ = v.capacity_ then 1 else 0) +
      reallocations raw (PushBack_result raw v y) xs + _
    rw [Nat.add_assoc]
    rfl

/-- After the pushes of a non-empty `xs` onto the empty vector, the capacity is a power of
two `2 ^ k` with `2 ^ (k - 1) < length xs <= 2 ^ k`, reached in `k + 1` reallocations. -/
theorem growth_invariant (raw : Nat → T) (xs : List T) (hne : xs ≠ []) :
    ∃ k, (pushAll_result raw new xs).capacity_ = 2 ^ k ∧ xs.length ≤ 2 ^ k ∧
      (k ≠ 0 → 2 ^ (k - 1) < xs.length) ∧ reallocations raw new xs = k + 1 := by
  induction xs using List.reverseRecOn with
  | nil => exact absurd rfl hne
  | append_singleton xs x ih =>
    by_cases hx : xs = []
    · subst hx
      refine ⟨0, ?_, ?_, ?_, ?_⟩
      · show (PushBack_result raw new x).capacity_ = 1
        rw [PushBack_capacity]
        rfl
      · simp
      · intro c; exact absurd rfl c
      · rfl
    · obtain ⟨k, hc, hle, hlow, hr⟩ := ih hx
      have hs : (pushAll_result raw new xs).size_ = xs.length := by
        rw [pushAll_size]; exact Nat.zero_add _
      rw [pushAll_append, reallocations_append, PushBack_capacity, hs, hc, hr,
        List.length_append, List.length_singleton]
      have hpos : 1 ≤ 2 ^ k := Nat.one_le_two_pow
      by_cases hfull : xs.length = 2 ^ k
      · rw [if_pos hfull, if_pos hfull]
        refine ⟨k + 1, ?_, ?_, ?_, rfl⟩
        · rw [Nat.pow_succ]
          exact Nat.max_eq_right (by omega)
        · rw [Nat.pow_succ]; omega
        · intro _
          rw [Nat.add_sub_cancel]; omega
      · rw [if_neg hfull, if_neg hfull]
        refine ⟨k, rfl, by omega, ?_, rfl⟩
        intro c
        have := hlow c
        omega

/-- C19. After `n >= 1` calls of `PushBack` on a default-constructed vector the capacity is
the least power of two that is `>= n`: `PushBack` on a full vector doubles the capacity, and
takes capacity 0 to 1. The pushes that reallocate number `ceil(log2 n) + 1`, not `n`. -/
theorem C19_capacity_power_of_two (raw : Nat → T) (xs : List T) (hn : 1 ≤ xs.length) :
    (∃ w, pushAll raw new xs = .ok w ∧
      w.capacity_ = 2 ^ Nat.clog 2 xs.length ∧
      xs.length ≤ w.capacity_ ∧
      (∀ j, xs.length ≤ 2 ^ j → w.capacity_ ≤ 2 ^ j)) ∧
    reallocations raw new xs = Nat.clog 2 xs.length + 1 ∧
    (∀ (v : SimpleVector T) (x : T), v.size_ = v.capacity_ →
      ∃ u, PushBack raw v (Ref.outside x) = .ok u ∧
        u.capacity_ = if v.capacity_ = 0 then 1 else v.capacity_ * 2) := by
  have hne : xs ≠ [] := by
    intro c
    rw [c] at hn
    exact Nat.not_succ_le_zero 0 hn
  obtain ⟨k, hc, hle, hlow, hr⟩ := growth_invariant raw xs hne
  have hleast : ∀ j, xs.length ≤ 2 ^ j → 2 ^ k ≤ 2 ^ j := by
    intro j hj
    by_cases hk : k = 0
    · rw [hk]; exact Nat.one_le_two_pow
    · have h1 := hlow hk
      have h2 : 2 ^ (k - 1) < 2 ^ j := Nat.lt_of_lt_of_le h1 hj
      have h3 : k - 1 < j := (Nat.pow_lt_pow_iff_right (by decide)).mp h2
      exact Nat.pow_le_pow_right (by decide) (by omega)
  have hclog : Nat.clog 2 xs.length = k := by
    apply Nat.le_antisymm
    · exact (Nat.le_pow_iff_clog_le (by decide)).mp hle
    · exact (Nat.pow_le_pow_iff_right (by decide)).mp
        (hleast _ (Nat.le_pow_clog (by decide) _))
  refine ⟨⟨_, pushAll_ok raw xs new, by rw [hc, hclog], by rw [hc]; exact hle, ?_⟩,
    by rw [hr, hclog], ?_⟩
  · intro j hj
    rw [hc]
    exact hleast j hj
  · intro v x hfull
    refine ⟨_, PushBack_outside raw v x, ?_⟩
    rw [PushBack_capacity, if_pos hfull]
    split_ifs with c
    · rw [c]; rfl
    · exact Nat.max_eq_right (by omega)

theorem C19_capacity_power_of_two_witness :
    1 ≤ [1, 2, 3, 4, 5].length ∧
    pushAll rawCells new [1, 2, 3, 4, 5] =
      .ok { size_ := 5, capacity_ := 8, arr_ := [1, 2, 3, 4, 5, 0, 0, 0] } ∧
    reallocations rawCells new [1, 2, 3, 4, 5] = 4 ∧
    ∃ w, pushAll rawCells new [1, 2, 3, 4, 5] = .ok w ∧
      w.capacity_ = 2 ^ Nat.clog 2 [1, 2, 3, 4, 5].length ∧
      [1, 2, 3, 4, 5].length ≤ w.capacity_ ∧
      (∀ j, [1, 2, 3, 4, 5].length ≤ 2 ^ j → w.capacity_ ≤ 2 ^ j) :=
  ⟨by decide, by decide, by decide,
    (C19_capacity_power_of_two rawCells [1, 2, 3, 4, 5] (by decide)).1⟩

end SimpleVector

